import Mathlib

/-!
# A verified model of the block-ledger service

This file is a shallow embedding, in Lean 4, of the UTXO block ledger
implemented in `src/index.ts` (the `POST /blocks` handler and the SQL
schema it runs against), together with proofs and refutations of the
stated properties of that service.

The embedding is sequential: each HTTP submission is one atomic step on
an explicit `Ledger` state that mirrors the five SQL tables (`blocks`,
`transactions`, `outputs`, `inputs`, `balances`).  Validation performs
only reads; the apply phase runs inside `BEGIN`/`COMMIT` with a
`ROLLBACK` on error, which the embedding renders by discarding the
partial state on any apply error.
-/

/-! ## SHA-256

The handler derives the expected block id as the hex-encoded SHA-256
digest of `block.height + txIdsConcat` (JavaScript string coercion of
the height followed by the concatenated transaction ids).  We implement
SHA-256 (FIPS 180-4) executably over `Nat`, with explicit `% 2^32`
where 32-bit overflow matters, so that concrete block ids can be
evaluated inside proofs. -/

namespace Sha256

/-- 2^32, the modulus of 32-bit words. -/
def M32 : Nat := 4294967296

/-- Right rotation of a 32-bit word. -/
def rotr (n x : Nat) : Nat := ((x >>> n) ||| (x <<< (32 - n))) % M32

/-- Σ0 of FIPS 180-4. -/
def bigS0 (x : Nat) : Nat := (rotr 2 x) ^^^ (rotr 13 x) ^^^ (rotr 22 x)

/-- Σ1 of FIPS 180-4. -/
def bigS1 (x : Nat) : Nat := (rotr 6 x) ^^^ (rotr 11 x) ^^^ (rotr 25 x)

/-- σ0 of FIPS 180-4. -/
def smallS0 (x : Nat) : Nat := (rotr 7 x) ^^^ (rotr 18 x) ^^^ (x >>> 3)

/-- σ1 of FIPS 180-4. -/
def smallS1 (x : Nat) : Nat := (rotr 17 x) ^^^ (rotr 19 x) ^^^ (x >>> 10)

/-- Ch(x,y,z) = (x ∧ y) ⊕ (¬x ∧ z). -/
def ch (x y z : Nat) : Nat := (x &&& y) ^^^ ((4294967295 ^^^ x) &&& z)

/-- Maj(x,y,z). -/
def maj (x y z : Nat) : Nat := (x &&& y) ^^^ (x &&& z) ^^^ (y &&& z)

/-- The 64 round constants of FIPS 180-4 (in decimal). -/
def K : List Nat :=
  [1116352408, 1899447441, 3049323471, 3921009573, 961987163, 1508970993,
   2453635748, 2870763221, 3624381080, 310598401, 607225278, 1426881987,
   1925078388, 2162078206, 2614888103, 3248222580, 3835390401, 4022224774,
   264347078, 604807628, 770255983, 1249150122, 1555081692, 1996064986,
   2554220882, 2821834349, 2952996808, 3210313671, 3336571891, 3584528711,
   113926993, 338241895, 666307205, 773529912, 1294757372, 1396182291,
   1695183700, 1986661051, 2177026350, 2456956037, 2730485921, 2820302411,
   3259730800, 3345764771, 3516065817, 3600352804, 4094571909, 275423344,
   430227734, 506948616, 659060556, 883997877, 958139571, 1322822218,
   1537002063, 1747873779, 1955562222, 2024104815, 2227730452, 2361852424,
   2428436474, 2756734187, 3204031479, 3329325298]

/-- The initial hash value of FIPS 180-4 (in decimal). -/
def H0 : List Nat :=
  [1779033703, 3144134277, 1013904242, 2773480762,
   1359893119, 2600822924, 528734635, 1541459225]

/-- The 8-byte big-endian encoding of the message bit length. -/
def lenBytes (n : Nat) : List Nat :=
  [(n >>> 56) % 256, (n >>> 48) % 256, (n >>> 40) % 256, (n >>> 32) % 256,
   (n >>> 24) % 256, (n >>> 16) % 256, (n >>> 8) % 256, n % 256]

/-- Pad a byte message to a multiple of 64 bytes: `0x80`, zeros, bit length. -/
def pad (msg : List Nat) : List Nat :=
  let L := msg.length
  msg ++ [0x80] ++ List.replicate ((64 - (L + 9) % 64) % 64) 0 ++ lenBytes (8 * L)

/-- Group bytes into 32-bit big-endian words. -/
def toWords : List Nat → List Nat
  | a :: b :: c :: d :: rest => ((a <<< 24) + (b <<< 16) + (c <<< 8) + d) :: toWords rest
  | _ => []

/-- Produce `n` further schedule words from the sliding window of the
last 16 words (`w[i] = w[i-16] + σ0 w[i-15] + w[i-7] + σ1 w[i-2]`). -/
def schedule : Nat → List Nat → List Nat
  | 0, _ => []
  | n + 1, ws =>
    let nw := ((ws.getD 0 0) + smallS0 (ws.getD 1 0) + (ws.getD 9 0) + smallS1 (ws.getD 14 0)) % M32
    nw :: schedule n (ws.drop 1 ++ [nw])

/-- The working variables a–h of the compression loop. -/
structure Hs where
  a : Nat
  b : Nat
  c : Nat
  d : Nat
  e : Nat
  f : Nat
  g : Nat
  h : Nat

/-- One round of the compression loop, consuming a `(kᵢ, wᵢ)` pair. -/
def round (s : Hs) (kw : Nat × Nat) : Hs :=
  let t1 := (s.h + bigS1 s.e + ch s.e s.f s.g + kw.1 + kw.2) % M32
  let t2 := (bigS0 s.a + maj s.a s.b s.c) % M32
  ⟨(t1 + t2) % M32, s.a, s.b, s.c, (s.d + t1) % M32, s.e, s.f, s.g⟩

/-- Compress one 64-byte block into the running hash (8 words). -/
def compress (h : List Nat) (block : List Nat) : List Nat :=
  let w16 := toWords block
  let w := w16 ++ schedule 48 w16
  let s0 : Hs := ⟨h.getD 0 0, h.getD 1 0, h.getD 2 0, h.getD 3 0,
                  h.getD 4 0, h.getD 5 0, h.getD 6 0, h.getD 7 0⟩
  let s := (K.zip w).foldl round s0
  [((h.getD 0 0) + s.a) % M32, ((h.getD 1 0) + s.b) % M32,
   ((h.getD 2 0) + s.c) % M32, ((h.getD 3 0) + s.d) % M32,
   ((h.getD 4 0) + s.e) % M32, ((h.getD 5 0) + s.f) % M32,
   ((h.getD 6 0) + s.g) % M32, ((h.getD 7 0) + s.h) % M32]

/-- Fold `compress` over `n` successive 64-byte chunks. -/
def foldBlocks (h : List Nat) (l : List Nat) : Nat → List Nat
  | 0 => h
  | n + 1 => foldBlocks (compress h (l.take 64)) (l.drop 64) n

/-- SHA-256 of a byte message, as 8 words. -/
def sha256 (msg : List Nat) : List Nat :=
  let p := pad msg
  foldBlocks H0 p (p.length / 64)

/-- One lowercase hex digit. -/
def hexChar (n : Nat) : Char :=
  if n < 10 then Char.ofNat (48 + n) else Char.ofNat (87 + n)

/-- Eight hex digits of a 32-bit word, most significant first. -/
def hexWord (w : Nat) : List Char :=
  [hexChar ((w >>> 28) % 16), hexChar ((w >>> 24) % 16),
   hexChar ((w >>> 20) % 16), hexChar ((w >>> 16) % 16),
   hexChar ((w >>> 12) % 16), hexChar ((w >>> 8) % 16),
   hexChar ((w >>> 4) % 16), hexChar (w % 16)]

/-- UTF-8 encoding of one character. -/
def utf8Bytes (c : Char) : List Nat :=
  let n := c.toNat
  if n < 0x80 then [n]
  else if n < 0x800 then [0xC0 ||| (n >>> 6), 0x80 ||| (n &&& 0x3F)]
  else if n < 0x10000 then
    [0xE0 ||| (n >>> 12), 0x80 ||| ((n >>> 6) &&& 0x3F), 0x80 ||| (n &&& 0x3F)]
  else
    [0xF0 ||| (n >>> 18), 0x80 ||| ((n >>> 12) &&& 0x3F),
     0x80 ||| ((n >>> 6) &&& 0x3F), 0x80 ||| (n &&& 0x3F)]

/-- The UTF-8 bytes of a string. -/
def strBytes (s : String) : List Nat :=
  s.data.foldr (fun c acc => utf8Bytes c ++ acc) []

/-- Lowercase-hex SHA-256 digest of a string, as `crypto.createHash("sha256").update(s).digest("hex")`. -/
def sha256hexStr (s : String) : String :=
  String.mk ((sha256 (strBytes s)).foldr (fun w acc => hexWord w ++ acc) [])

end Sha256

/-! ## Data model

The request-body types of the handler (`Block`, `Transaction`, `Input`,
`Output` of the schema comment at `src/index.ts:16-20`) and a `Ledger`
state mirroring the five SQL tables created by `createTables`.  Row
lists keep insertion order (the order `INSERT` produced), `SERIAL`
surrogate keys are left implicit in that order. -/

/-- An input of a submitted transaction: `{ txId, index }`. -/
structure TxInput where
  txId : String
  index : Nat
deriving DecidableEq

/-- An output of a submitted transaction: `{ address, value }`. -/
structure TxOutput where
  address : String
  value : Int
deriving DecidableEq

/-- A submitted transaction: `{ id, inputs, outputs }`. -/
structure Transaction where
  id : String
  inputs : List TxInput
  outputs : List TxOutput
deriving DecidableEq

/-- A submitted block: `{ id, height, transactions }`. -/
structure Block where
  id : String
  height : Nat
  transactions : List Transaction
deriving DecidableEq

/-- A row of the `outputs` table. -/
structure OutputRow where
  tx_id : String
  output_index : Nat
  address : String
  value : Int
  spent : Bool
deriving DecidableEq

/-- A row of the `inputs` table. -/
structure InputRow where
  tx_id : String
  referenced_tx_id : String
  referenced_output_index : Nat
deriving DecidableEq

/-- The persisted ledger state: the five tables.  `blocks` rows are
`(id, height)`, `transactions` rows are `(id, block_id)`, `balances`
rows are `(address, balance)` with `address` the primary key. -/
structure Ledger where
  blocks : List (String × Nat)
  transactions : List (String × String)
  outputs : List OutputRow
  inputs : List InputRow
  balances : List (String × Int)
deriving DecidableEq

/-- The empty ledger, as bootstrapped by `createTables`. -/
def emptyLedger : Ledger := ⟨[], [], [], [], []⟩

/-- `SELECT height FROM blocks ORDER BY height DESC LIMIT 1`, defaulting
to 0 on an empty table: the maximum stored height. -/
def currentHeight (s : Ledger) : Nat :=
  s.blocks.foldr (fun p m => max p.2 m) 0

/-- The expected block id (`src/index.ts:34-39`): hex SHA-256 of the
JavaScript string `block.height + txIdsConcat`, i.e. the height's
decimal string followed by the transaction ids in order. -/
def expectedId (b : Block) : String :=
  Sha256.sha256hexStr (toString b.height ++ String.join (b.transactions.map (fun t => t.id)))

/-- The rejection reasons the handler can answer with (each `400`
response of the handler, plus the key-conflict errors the `INSERT`s can
raise inside the apply transaction). -/
inductive Reason where
  | heightMismatch (expected : Nat)
  | invalidBlockId
  | inputNotFound (txId : String) (index : Nat)
  | inputAlreadySpent (txId : String) (index : Nat)
  | sumMismatch (txId : String)
  | duplicateBlock
  | duplicateTransaction (txId : String)
deriving DecidableEq

/-- `SELECT ... FROM outputs WHERE tx_id = $1 AND output_index = $2`
(first matching row). -/
def lookupOutput (rows : List OutputRow) (txId : String) (index : Nat) : Option OutputRow :=
  rows.find? (fun r => r.tx_id == txId && r.output_index == index)

/-- `tx.outputs.reduce((sum, o) => sum + o.value, 0)`. -/
def outSum (outs : List TxOutput) : Int :=
  outs.foldl (fun sum o => sum + o.value) 0

/-- The per-input validation of `src/index.ts:51-66`: look the
referenced output up, fail `InputNotFound` if absent, fail
`InputAlreadySpent` if its spent flag is set. -/
def checkInput (rows : List OutputRow) (i : TxInput) : Except Reason OutputRow :=
  match lookupOutput rows i.txId i.index with
  | none => .error (.inputNotFound i.txId i.index)
  | some r => if r.spent then .error (.inputAlreadySpent i.txId i.index) else .ok r

/-- The input loop of `src/index.ts:51-67`: check each input in order
and accumulate `inputSum`. -/
def inputSum (rows : List OutputRow) : List TxInput → Except Reason Int
  | [] => .ok 0
  | i :: rest =>
    match checkInput rows i with
    | .error e => .error e
    | .ok r =>
      match inputSum rows rest with
      | .error e => .error e
      | .ok v => .ok (r.value + v)

/-- Validation of one transaction (`src/index.ts:45-75`): a zero-input
transaction of a height-1 block is coinbase and passes unconditionally;
otherwise the inputs are checked and the input sum must equal the
output sum, else `SumMismatch`. -/
def validateTx (rows : List OutputRow) (height : Nat) (tx : Transaction) : Option Reason :=
  if height = 1 ∧ tx.inputs = [] then
    none
  else
    match inputSum rows tx.inputs with
    | .error e => some e
    | .ok v => if v ≠ outSum tx.outputs then some (.sumMismatch tx.id) else none

/-- The `for (const tx of block.transactions)` validation loop,
short-circuiting on the first failure. -/
def validateTxs (rows : List OutputRow) (height : Nat) : List Transaction → Option Reason
  | [] => none
  | tx :: rest =>
    match validateTx rows height tx with
    | some e => some e
    | none => validateTxs rows height rest

/-- The validation phase of the handler (`src/index.ts:22-76`): height
check, block-id check, then the per-transaction loop.  All reads go to
the committed `outputs` table. -/
def validate (s : Ledger) (b : Block) : Option Reason :=
  if b.height ≠ currentHeight s + 1 then some (.heightMismatch (currentHeight s + 1))
  else if b.id ≠ expectedId b then some .invalidBlockId
  else validateTxs s.outputs b.height b.transactions

/-! ## Apply phase

`src/index.ts:78-131`: inside `BEGIN`/`COMMIT`, insert the block row,
then per transaction insert the transaction row, insert each output and
credit its address, and per input insert the input row, mark the
referenced output spent and debit its address — the debit guarded by
the referenced output still existing.  Key conflicts (`blocks` primary
key/unique height, `transactions` primary key) raise and roll the whole
unit back. -/

/-- `INSERT INTO balances ... ON CONFLICT (address) DO UPDATE SET
balance = balances.balance + $2`. -/
def upsertBalance (bal : List (String × Int)) (a : String) (v : Int) : List (String × Int) :=
  if bal.any (fun p => p.1 == a) then
    bal.map (fun p => if p.1 == a then (p.1, p.2 + v) else p)
  else
    bal ++ [(a, v)]

/-- `UPDATE balances SET balance = balance - $1 WHERE address = $2`
(a no-op when no row matches). -/
def debitBalance (bal : List (String × Int)) (a : String) (v : Int) : List (String × Int) :=
  bal.map (fun p => if p.1 == a then (p.1, p.2 - v) else p)

/-- `UPDATE outputs SET spent = TRUE WHERE tx_id = $1 AND output_index = $2`. -/
def markSpent (rows : List OutputRow) (txId : String) (index : Nat) : List OutputRow :=
  rows.map (fun r =>
    if r.tx_id == txId && r.output_index == index then
      { r with spent := true }
    else r)

/-- The output loop of `src/index.ts:91-102`: insert each output row
(`spent = FALSE`) and credit its address, indices counting from 0. -/
def applyOutputs (txId : String) : Ledger → Nat → List TxOutput → Ledger
  | s, _, [] => s
  | s, i, o :: rest =>
    applyOutputs txId
      { s with
        outputs := s.outputs ++ [⟨txId, i, o.address, o.value, false⟩],
        balances := upsertBalance s.balances o.address o.value }
      (i + 1) rest

/-- The input loop of `src/index.ts:104-124`: insert the input row,
mark the referenced output spent, then re-select it and debit its
address — skipping the debit when the select finds no row. -/
def applyInputs (txId : String) : Ledger → List TxInput → Ledger
  | s, [] => s
  | s, inp :: rest =>
    let s1 : Ledger :=
      { s with
        inputs := s.inputs ++ [⟨txId, inp.txId, inp.index⟩],
        outputs := markSpent s.outputs inp.txId inp.index }
    let s2 : Ledger :=
      match lookupOutput s1.outputs inp.txId inp.index with
      | some r => { s1 with balances := debitBalance s1.balances r.address r.value }
      | none => s1
    applyInputs txId s2 rest

/-- Apply one transaction: insert the transaction row (primary-key
conflict raises), then its outputs, then its inputs. -/
def applyTx (blockId : String) (s : Ledger) (tx : Transaction) : Except Reason Ledger :=
  if s.transactions.any (fun p => p.1 == tx.id) then
    .error (.duplicateTransaction tx.id)
  else
    .ok (applyInputs tx.id
          (applyOutputs tx.id
            { s with transactions := s.transactions ++ [(tx.id, blockId)] }
            0 tx.outputs)
          tx.inputs)

/-- The `for (const tx of block.transactions)` apply loop. -/
def applyTxs (blockId : String) : Ledger → List Transaction → Except Reason Ledger
  | s, [] => .ok s
  | s, tx :: rest =>
    match applyTx blockId s tx with
    | .error e => .error e
    | .ok s1 => applyTxs blockId s1 rest

/-- The whole apply phase: insert the block row (primary-key or unique
height conflict raises), then the transactions.  An error means the
unit was rolled back. -/
def applyBlock (s : Ledger) (b : Block) : Except Reason Ledger :=
  if s.blocks.any (fun p => p.1 == b.id || p.2 == b.height) then
    .error .duplicateBlock
  else
    applyTxs b.id { s with blocks := s.blocks ++ [(b.id, b.height)] } b.transactions

/-- One `POST /blocks` submission: validate, and only on acceptance run
the apply phase. -/
def submitBlock (s : Ledger) (b : Block) : Except Reason Ledger :=
  match validate s b with
  | some e => .error e
  | none => applyBlock s b

/-- The ledger state after a submission: the committed state on
success; on any rejection the state is unchanged (validation only
reads, and a failed apply unit is rolled back). -/
def step (s : Ledger) (b : Block) : Ledger :=
  match submitBlock s b with
  | .ok s1 => s1
  | .error _ => s

/-- `balanceOf`: the stored balance of an address, 0 when it has no
row. -/
def balanceOf (s : Ledger) (a : String) : Int :=
  match s.balances.find? (fun p => p.1 == a) with
  | some p => p.2
  | none => 0

/-- The sum of the values of the unspent outputs owned by an address. -/
def unspentSum (s : Ledger) (a : String) : Int :=
  (s.outputs.filter (fun r => r.address == a && !r.spent)).foldl
    (fun acc r => acc + r.value) 0

/-- Submit a sequence of blocks from a starting state; `none` as soon
as one submission is rejected. -/
def replay : Ledger → List Block → Option Ledger
  | s, [] => some s
  | s, b :: rest =>
    match submitBlock s b with
    | .ok s1 => replay s1 rest
    | .error _ => none

/-! ## Rollback

The repository's ingestion source has no rollback handler; the
operation is specified (spec §4.3 `rollbackTo`) and exercised by the
test suite only, so it is modelled here from the spec. -/

/-- `UPDATE outputs SET spent = FALSE WHERE tx_id = ... AND output_index = ...`. -/
def markUnspent (rows : List OutputRow) (txId : String) (index : Nat) : List OutputRow :=
  rows.map (fun r =>
    if r.tx_id == txId && r.output_index == index then
      { r with spent := false }
    else r)

/-- `UPDATE balances SET balance = balance + v WHERE address = a`
(a no-op when no row matches). -/
def creditBalance (bal : List (String × Int)) (a : String) (v : Int) : List (String × Int) :=
  bal.map (fun p => if p.1 == a then (p.1, p.2 + v) else p)

/-- Modelled from the spec: undo one stored input row (spec §4.3,
"for each of its transactions' inputs, re-mark the referenced output
spent=false and re-credit that output's address balance").  Skips when
the referenced output no longer exists. -/
def undoInput (s : Ledger) (ir : InputRow) : Ledger :=
  match lookupOutput s.outputs ir.referenced_tx_id ir.referenced_output_index with
  | some r =>
    { s with
      outputs := markUnspent s.outputs ir.referenced_tx_id ir.referenced_output_index,
      balances := creditBalance s.balances r.address r.value }
  | none => s

/-- Modelled from the spec: undo one stored output row (spec §4.3,
"debit the address balance by the output's value"); the row itself is
deleted by `rollbackTx`. -/
def undoOutput (s : Ledger) (r : OutputRow) : Ledger :=
  { s with balances := debitBalance s.balances r.address r.value }

/-- Modelled from the spec: roll one stored transaction back
(spec §4.3): undo its input rows, debit its outputs' addresses, then
delete its output rows, its input rows (`ON DELETE CASCADE`) and the
transaction row. -/
def rollbackTx (s : Ledger) (txId : String) : Ledger :=
  let s1 := (s.inputs.filter (fun ir => ir.tx_id == txId)).foldl undoInput s
  let s2 := (s1.outputs.filter (fun r => r.tx_id == txId)).foldl undoOutput s1
  { s2 with
    outputs := s2.outputs.filter (fun r => !(r.tx_id == txId)),
    inputs := s2.inputs.filter (fun ir => !(ir.tx_id == txId)),
    transactions := s2.transactions.filter (fun p => !(p.1 == txId)) }

/-- Modelled from the spec: roll one stored block back (spec §4.3):
roll each of its transactions back, then delete the block row. -/
def rollbackBlock (s : Ledger) (blockId : String) : Ledger :=
  let s1 := ((s.transactions.filter (fun p => p.2 == blockId)).map (fun p => p.1)).foldl
    rollbackTx s
  { s1 with blocks := s1.blocks.filter (fun p => !(p.1 == blockId)) }

/-- Roll back the topmost block while the current height exceeds `h`,
consuming fuel (descending height order, since the topmost block is
always the one with the maximum height). -/
def rollbackSteps (h : Nat) : Nat → Ledger → Ledger
  | 0, s => s
  | n + 1, s =>
    if h < currentHeight s then
      match s.blocks.find? (fun p => p.2 == currentHeight s) with
      | some p => rollbackSteps h n (rollbackBlock s p.1)
      | none => s
    else s

/-- Modelled from the spec: `rollbackTo(targetHeight)` (spec §4.3):
delete every block above the target height in descending height order,
undoing its effects; fails when the target exceeds the current
height. -/
def rollbackTo (h : Nat) (s : Ledger) : Option Ledger :=
  if h ≤ currentHeight s then some (rollbackSteps h s.blocks.length s) else none

/-! ## Concrete scenario data

Concrete blocks used by the witnesses and counterexamples: the genesis
coinbase of the repository's test suite, the spend of its output, and
an intra-block double spend of the same output. -/

/-- The test suite's genesis coinbase: no inputs, `{addr1: 10}`. -/
def gtx : Transaction := ⟨"tx1", [], [⟨"addr1", 10⟩]⟩

/-- The genesis block; its id is SHA-256 of `"1tx1"`. -/
def gblock : Block :=
  ⟨"d1582b9e2cac15e170c39ef2e85855ffd7e6a820550a8ca16a2f016d366503dc", 1, [gtx]⟩

/-- The test suite's second block's transaction: spends `(tx1, 0)` into
`{addr2: 4, addr3: 6}`. -/
def tx2 : Transaction := ⟨"tx2", [⟨"tx1", 0⟩], [⟨"addr2", 4⟩, ⟨"addr3", 6⟩]⟩

/-- The test suite's second block; its id is SHA-256 of `"2tx2"`. -/
def blk2 : Block :=
  ⟨"c4701d0bfd7179e1db6e33e947e6c718bbc4a1ae927300cd1e3bda91a930cba5", 2, [tx2]⟩

/-- First half of an intra-block double spend: spends `(tx1, 0)` into
`{addr2: 10}`. -/
def txA : Transaction := ⟨"txA", [⟨"tx1", 0⟩], [⟨"addr2", 10⟩]⟩

/-- Second half of an intra-block double spend: spends `(tx1, 0)`
again, into `{addr3: 10}`. -/
def txB : Transaction := ⟨"txB", [⟨"tx1", 0⟩], [⟨"addr3", 10⟩]⟩

/-- A height-2 block whose two transactions both spend `(tx1, 0)`; its
id is SHA-256 of `"2txAtxB"`. -/
def blkDouble : Block :=
  ⟨"0320e3988ecf063bf77cce50e6f0e0959e4dc6e371dac214f751f28a2232046a", 2, [txA, txB]⟩

/-- Whether a submission is accepted (HTTP 200). -/
def accepts (s : Ledger) (b : Block) : Bool :=
  match submitBlock s b with
  | .ok _ => true
  | .error _ => false

/-- Whether an address has a `balances` row. -/
def hasKey (bal : List (String × Int)) (a : String) : Bool :=
  bal.any (fun p => p.1 == a)

/-- The stored balance of an address in a raw `balances` table (0
without a row). -/
def balVal (bal : List (String × Int)) (a : String) : Int :=
  match bal.find? (fun p => p.1 == a) with
  | some p => p.2
  | none => 0

/-- A ledger state in which a block at height 1 exists but the output
`(tx1, 0)` does not (as after a concurrent rollback between validation
and apply). -/
def ghostLedger : Ledger :=
  ⟨[("b1", 1)], [], [], [], []⟩

/-- A transaction spending the vanished output `(tx1, 0)`, with no
outputs of its own. -/
def ghostTx : Transaction := ⟨"txC", [⟨"tx1", 0⟩], []⟩

/-- A height-2 block containing only `ghostTx`. -/
def ghostBlock : Block := ⟨"bx", 2, [ghostTx]⟩

/-- An `outputs` table with one unspent and one already-spent row. -/
def witRows : List OutputRow :=
  [⟨"tx1", 0, "addr1", 10, false⟩, ⟨"tx0", 0, "addr0", 3, true⟩]

/-- A small committed ledger at height 1 holding `witRows`. -/
def witLedger : Ledger :=
  ⟨[("g", 1)], [("tx1", "g"), ("tx0", "g")], witRows, [], [("addr1", 10), ("addr0", 3)]⟩

/-- A transaction whose input-referenced value (10) differs from its
output sum (5). -/
def witTxBad : Transaction := ⟨"txS", [⟨"tx1", 0⟩], [⟨"addr2", 5⟩]⟩

/-- A height-2 block containing `witTxBad`. -/
def witBlockBad : Block := ⟨"whatever", 2, [witTxBad]⟩

/-! ## Proof machinery for the rollback/replay inverse

The apply and rollback phases are characterised below as a pair of
table transformations plus a program of balance-table operations; the
definitions here name those artefacts.  Everything is proven against
the `applyBlock`/`rollbackBlock` definitions above. -/

/-- One balance-table operation: `ups` is the upserting credit
(`INSERT ... ON CONFLICT DO UPDATE`), `adj` a plain `UPDATE` adding
`v` (a no-op without a row). -/
inductive BalOp where
  | ups (a : String) (v : Int)
  | adj (a : String) (v : Int)
deriving DecidableEq

/-- Execute one balance operation. -/
def runOp (bal : List (String × Int)) : BalOp → List (String × Int)
  | .ups a v => upsertBalance bal a v
  | .adj a v => creditBalance bal a v

/-- Execute a program of balance operations. -/
def runOps (bal : List (String × Int)) (ops : List BalOp) : List (String × Int) :=
  ops.foldl runOp bal

/-- The address an operation touches. -/
def opKey : BalOp → String
  | .ups a _ => a
  | .adj a _ => a

/-- The signed value an operation adds. -/
def opVal : BalOp → Int
  | .ups _ v => v
  | .adj _ v => v

/-- The net delta a program applies to one address. -/
def opsDelta (ops : List BalOp) (x : String) : Int :=
  ops.foldr (fun op acc => (if opKey op = x then opVal op else 0) + acc) 0

/-- Presence discipline: every `adj` of the program acts on an address
that has a row at that point. -/
def OpsOk (bal : List (String × Int)) : List BalOp → Prop
  | [] => True
  | op :: rest =>
    (match op with
     | .ups _ _ => True
     | .adj a _ => hasKey bal a = true) ∧ OpsOk (runOp bal op) rest

/-- The `outputs` rows the apply phase inserts for one transaction,
indices counting from `i`. -/
def outRows (txId : String) : Nat → List TxOutput → List OutputRow
  | _, [] => []
  | i, o :: rest => ⟨txId, i, o.address, o.value, false⟩ :: outRows txId (i + 1) rest

/-- The `inputs` rows the apply phase inserts for one transaction. -/
def inRows (txId : String) (l : List TxInput) : List InputRow :=
  l.map (fun i => ⟨txId, i.txId, i.index⟩)

/-- Mark all the outputs referenced by a list of inputs spent. -/
def markAll (rows : List OutputRow) (l : List TxInput) : List OutputRow :=
  l.foldl (fun rs i => markSpent rs i.txId i.index) rows

/-- Mark all the outputs referenced by a list of inputs unspent. -/
def unmarkAll (rows : List OutputRow) (l : List TxInput) : List OutputRow :=
  l.foldl (fun rs i => markUnspent rs i.txId i.index) rows

/-- The address and value of the output a lookup finds, if any (the
data the balance updates read; the spent flag is not part of it). -/
def lookupAV (rows : List OutputRow) (txId : String) (index : Nat) : Option (String × Int) :=
  (lookupOutput rows txId index).map (fun r => (r.address, r.value))

/-- The upserting credits of one transaction's outputs. -/
def upsOps (outs : List TxOutput) : List BalOp :=
  outs.map (fun o => .ups o.address o.value)

/-- The debits of one transaction's inputs, reading the referenced
data in `rows`. -/
def refDebitOps (rows : List OutputRow) : List TxInput → List BalOp
  | [] => []
  | i :: rest =>
    (match lookupAV rows i.txId i.index with
     | some av => [BalOp.adj av.1 (-av.2)]
     | none => []) ++ refDebitOps rows rest

/-- The rollback credits of one transaction's inputs. -/
def refCreditOps (rows : List OutputRow) : List TxInput → List BalOp
  | [] => []
  | i :: rest =>
    (match lookupAV rows i.txId i.index with
     | some av => [BalOp.adj av.1 av.2]
     | none => []) ++ refCreditOps rows rest

/-- The rollback debits of a transaction's stored output rows. -/
def outDebitOps (rows : List OutputRow) : List BalOp :=
  rows.map (fun r => .adj r.address (-r.value))

/-- The `outputs` rows a list of transactions inserts. -/
def newRows : List Transaction → List OutputRow
  | [] => []
  | t :: ts => outRows t.id 0 t.outputs ++ newRows ts

/-- All the inputs of a list of transactions, in execution order. -/
def allRefs : List Transaction → List TxInput
  | [] => []
  | t :: ts => t.inputs ++ allRefs ts

/-- The `inputs` rows a list of transactions inserts. -/
def allInRows : List Transaction → List InputRow
  | [] => []
  | t :: ts => inRows t.id t.inputs ++ allInRows ts

/-- The `transactions` rows a block's transactions insert. -/
def txRows (blockId : String) (ts : List Transaction) : List (String × String) :=
  ts.map (fun t => (t.id, blockId))

/-- The balance program of the apply phase of a transaction list, all
referenced data read in `rows`. -/
def blockOps (rows : List OutputRow) : List Transaction → List BalOp
  | [] => []
  | t :: ts => upsOps t.outputs ++ refDebitOps rows t.inputs ++ blockOps rows ts

/-- The balance program of the rollback of a transaction list, all
referenced data read in `rows`. -/
def rbOps (rows : List OutputRow) : List Transaction → List BalOp
  | [] => []
  | t :: ts =>
    refCreditOps rows t.inputs ++ outDebitOps (outRows t.id 0 t.outputs) ++ rbOps rows ts

/-- Equality of the four non-balance tables. -/
def TablesEq (x y : Ledger) : Prop :=
  x.blocks = y.blocks ∧ x.transactions = y.transactions ∧
  x.outputs = y.outputs ∧ x.inputs = y.inputs

/-- Well-formedness of a committed ledger state: contiguous heights,
primary keys respected, foreign keys closed, every output's address
carrying a balance row. -/
def WF (s : Ledger) : Prop :=
  s.blocks.map Prod.snd = List.range' 1 s.blocks.length ∧
  (s.blocks.map Prod.fst).Nodup ∧
  (s.transactions.map Prod.fst).Nodup ∧
  (∀ r ∈ s.outputs, r.tx_id ∈ s.transactions.map Prod.fst) ∧
  (s.outputs.map (fun r => (r.tx_id, r.output_index))).Nodup ∧
  (∀ ir ∈ s.inputs, ir.tx_id ∈ s.transactions.map Prod.fst) ∧
  (∀ r ∈ s.outputs, hasKey s.balances r.address = true) ∧
  (∀ p ∈ s.transactions, p.2 ∈ s.blocks.map Prod.fst) ∧
  (s.balances.map Prod.fst).Nodup

/-- A genesis coinbase transaction whose id is the digit string `"2"`,
so that `height ++ txIdsConcat = "1" ++ "2" = "12"` and the genesis
block id is the SHA-256 of `"12"`. -/
def collTx : Transaction := ⟨"2", [], []⟩

/-- The genesis block carrying `collTx`: its id is forced to be the
SHA-256 of `"12"`, the same preimage the empty block at height 12
hashes. -/
def collGenesis : Block := ⟨Sha256.sha256hexStr "12", 1, [collTx]⟩

/-- The empty block at height `h`: no transactions, id the SHA-256 of
the height's decimal string alone. -/
def emptyBlockAt (h : Nat) : Block := ⟨Sha256.sha256hexStr (toString h), h, []⟩

/-- `collGenesis` followed by empty blocks at heights 2..11: an
accepted chain that stores a block row whose id is the SHA-256 of
`"12"`. -/
def collChain : List Block := collGenesis :: (List.range' 2 10).map emptyBlockAt

/-- The committed state after replaying `collChain` from the empty
ledger: current height 11, with the id SHA-256("12") already taken. -/
def collState : Ledger := (replay emptyLedger collChain).getD emptyLedger

/-! ## General lemmas -/

/-- Known-answer check of the SHA-256 model against the FIPS 180-4 test
vector for "abc". -/
theorem sha256_abc :
    Sha256.sha256hexStr "abc"
      = "ba7816bf8f01cfea414140de5dae2223b00361a396177a9cb410ff61f20015ad" := by
  decide

theorem height_le_foldr_max (l : List (String × Nat)) (p : String × Nat) (hp : p ∈ l) :
    p.2 ≤ l.foldr (fun q m => max q.2 m) 0 := by
  induction l with
  | nil => cases hp
  | cons q rest ih =>
    rcases List.mem_cons.mp hp with h | h
    · subst h; exact Nat.le_max_left _ _
    · exact Nat.le_trans (ih h) (Nat.le_max_right _ _)

theorem mem_blocks_height_le (s : Ledger) (p : String × Nat) (hp : p ∈ s.blocks) :
    p.2 ≤ currentHeight s :=
  height_le_foldr_max s.blocks p hp

theorem string_append_empty (s : String) : s ++ "" = s := by
  cases s
  show String.mk _ = String.mk _
  simp [String.append]

/-- Split an accepted validation into its three phases. -/
theorem validate_none_parts (s : Ledger) (b : Block) (h : validate s b = none) :
    b.height = currentHeight s + 1 ∧ b.id = expectedId b ∧
      validateTxs s.outputs b.height b.transactions = none := by
  by_cases h1 : b.height = currentHeight s + 1
  · by_cases h2 : b.id = expectedId b
    · refine ⟨h1, h2, ?_⟩
      simpa [validate, h1, h2] using h
    · simp [validate, h1, h2] at h
  · simp [validate, h1] at h

/-- An accepted transaction list accepts each member. -/
theorem validateTxs_none_mem (rows : List OutputRow) (height : Nat)
    (l : List Transaction) (h : validateTxs rows height l = none)
    (tx : Transaction) (htx : tx ∈ l) : validateTx rows height tx = none := by
  induction l with
  | nil => cases htx
  | cons t rest ih =>
    revert h
    unfold validateTxs
    cases hv : validateTx rows height t with
    | some e => intro h; cases h
    | none =>
      intro h
      rcases List.mem_cons.mp htx with heq | hmem
      · subst heq; exact hv
      · exact ih h hmem

/-- For a non-coinbase transaction, acceptance is exactly a successful
input walk summing to the output sum. -/
theorem validateTx_none_iff (rows : List OutputRow) (height : Nat) (tx : Transaction)
    (hnc : ¬(height = 1 ∧ tx.inputs = [])) :
    validateTx rows height tx = none ↔
      inputSum rows tx.inputs = .ok (outSum tx.outputs) := by
  unfold validateTx
  rw [if_neg hnc]
  cases hs : inputSum rows tx.inputs with
  | error e => simp
  | ok v =>
    by_cases hv : v = outSum tx.outputs
    · subst hv; simp
    · simp [hv]

/-- A successful input walk found every input unspent. -/
theorem inputSum_ok_mem (rows : List OutputRow) (l : List TxInput) (v : Int)
    (h : inputSum rows l = .ok v) (i : TxInput) (hi : i ∈ l) :
    ∃ r, lookupOutput rows i.txId i.index = some r ∧ r.spent = false := by
  induction l generalizing v with
  | nil => cases hi
  | cons j rest ih =>
    revert h
    unfold inputSum
    cases hc : checkInput rows j with
    | error e => intro h; cases h
    | ok r =>
      cases hrest : inputSum rows rest with
      | error e => intro h; cases h
      | ok w =>
        intro _
        rcases List.mem_cons.mp hi with heq | hmem
        · subst heq
          revert hc
          unfold checkInput
          cases hl : lookupOutput rows i.txId i.index with
          | none => intro h; cases h
          | some r0 =>
            by_cases hsp : r0.spent
            · simp [hsp]
            · intro _
              exact ⟨r0, rfl, by simpa using hsp⟩
        · exact ih w hrest hmem

/-! ## The claims -/

/-- Claim C6 (confirmed): a submitted block is accepted only if its
height equals the current height plus one, the current height being the
maximum stored block height (0 for an empty ledger); any other height
is rejected with `HeightMismatch` and the ledger is unchanged. -/
theorem height_sequencing (s : Ledger) (b : Block)
    (h : b.height ≠ currentHeight s + 1) :
    submitBlock s b = .error (.heightMismatch (currentHeight s + 1)) ∧
    step s b = s ∧
    (∀ p ∈ s.blocks, p.2 ≤ currentHeight s) ∧
    currentHeight emptyLedger = 0 := by
  refine ⟨?_, ?_, fun p hp => mem_blocks_height_le s p hp, rfl⟩
  · simp [submitBlock, validate, h]
  · simp [step, submitBlock, validate, h]

theorem height_sequencing_witness :
    submitBlock emptyLedger ⟨"x", 5, []⟩ = .error (.heightMismatch 1) ∧
    step emptyLedger ⟨"x", 5, []⟩ = emptyLedger ∧
    (∀ p ∈ emptyLedger.blocks, p.2 ≤ currentHeight emptyLedger) ∧
    currentHeight emptyLedger = 0 :=
  height_sequencing emptyLedger ⟨"x", 5, []⟩ (by decide)

/-- Claim C7 (confirmed): the canonical id of a block is the
hex-encoded SHA-256 digest of the height's decimal string followed by
the transaction ids in order, and a block with correct height whose id
differs from this digest (in particular, any mutation of it) is
rejected with `InvalidBlockId` with the ledger unchanged. -/
theorem block_identity (s : Ledger) (b : Block)
    (hh : b.height = currentHeight s + 1) (hid : b.id ≠ expectedId b) :
    expectedId b
        = Sha256.sha256hexStr
            (toString b.height ++ String.join (b.transactions.map (fun t => t.id))) ∧
    submitBlock s b = .error .invalidBlockId ∧
    step s b = s := by
  refine ⟨rfl, ?_, ?_⟩
  · simp [submitBlock, validate, hh, hid]
  · simp [step, submitBlock, validate, hh, hid]

theorem block_identity_witness :
    expectedId ⟨"deadbeef", 1, []⟩
        = Sha256.sha256hexStr
            (toString (1 : Nat) ++ String.join ([] : List String)) ∧
    submitBlock emptyLedger ⟨"deadbeef", 1, []⟩ = .error .invalidBlockId ∧
    step emptyLedger ⟨"deadbeef", 1, []⟩ = emptyLedger :=
  block_identity emptyLedger ⟨"deadbeef", 1, []⟩ (by decide) (by decide)

/-- Claim C10 (corrected): a block with no transactions, the next
height, and id equal to the SHA-256 digest of the height's decimal
string alone is accepted — provided no stored block already carries
that id (the blocks primary key; without this hypothesis the claim
fails, see the counterexample: a stored id can equal the digest of a
later height's decimal string by sharing its preimage) — and the
accepted submission adds exactly one block record while leaving
transactions, outputs, inputs and balances untouched. -/
theorem empty_block_submission (s : Ledger) (b : Block)
    (hh : b.height = currentHeight s + 1)
    (hid : b.id = Sha256.sha256hexStr (toString b.height))
    (htx : b.transactions = [])
    (hfresh : ∀ p ∈ s.blocks, p.1 ≠ b.id) :
    submitBlock s b = .ok { s with blocks := s.blocks ++ [(b.id, b.height)] } := by
  have hexp : expectedId b = Sha256.sha256hexStr (toString b.height) := by
    rw [expectedId, htx]
    show Sha256.sha256hexStr (toString b.height ++ String.join []) = _
    rw [show String.join [] = "" from rfl, string_append_empty]
  have hval : validate s b = none := by
    simp [validate, hh, hexp, hid, htx, validateTxs]
  have hany : s.blocks.any (fun p => p.1 == b.id || p.2 == b.height) = false := by
    rw [List.any_eq_false]
    intro p hp
    have h1 : p.1 ≠ b.id := hfresh p hp
    have h2 : p.2 ≠ b.height := by
      have := mem_blocks_height_le s p hp
      omega
    simp [h1, h2]
  have happ : applyBlock s b
      = .ok { s with blocks := s.blocks ++ [(b.id, b.height)] } := by
    rw [applyBlock, hany]
    simp [htx, applyTxs]
  simp [submitBlock, hval, happ]

theorem empty_block_submission_witness :
    submitBlock emptyLedger ⟨Sha256.sha256hexStr "1", 1, []⟩
      = .ok { emptyLedger with
              blocks := emptyLedger.blocks ++ [(Sha256.sha256hexStr "1", 1)] } :=
  empty_block_submission emptyLedger ⟨Sha256.sha256hexStr "1", 1, []⟩
    (by decide) (by decide) rfl (by intro p hp; simp [emptyLedger] at hp)

/-- Claim C4 (confirmed): a zero-input transaction of a height-1 block
is coinbase and accepted regardless of its output sum; every other
transaction is accepted exactly when the sum of its input-referenced
output values equals its own output sum, and a successful input walk
with unequal sums is rejected as `SumMismatch`; in an accepted block
every non-coinbase transaction conserves value. -/
theorem value_conservation (s : Ledger) (b : Block) (tx : Transaction) :
    (b.height = 1 ∧ tx.inputs = [] → validateTx s.outputs b.height tx = none) ∧
    (¬(b.height = 1 ∧ tx.inputs = []) →
      (validateTx s.outputs b.height tx = none ↔
        inputSum s.outputs tx.inputs = .ok (outSum tx.outputs)) ∧
      (∀ v, inputSum s.outputs tx.inputs = .ok v → v ≠ outSum tx.outputs →
        validateTx s.outputs b.height tx = some (.sumMismatch tx.id))) ∧
    (validate s b = none → tx ∈ b.transactions → ¬(b.height = 1 ∧ tx.inputs = []) →
      inputSum s.outputs tx.inputs = .ok (outSum tx.outputs)) := by
  refine ⟨?_, fun hnc => ⟨validateTx_none_iff _ _ _ hnc, ?_⟩, ?_⟩
  · intro hc
    simp [validateTx, hc]
  · intro v hv hne
    simp [validateTx, hnc, hv, hne]
  · intro hval htx hnc
    have h3 := (validate_none_parts s b hval).2.2
    have h4 := validateTxs_none_mem _ _ _ h3 tx htx
    exact (validateTx_none_iff _ _ _ hnc).mp h4

theorem value_conservation_witness :
    validateTx witLedger.outputs 1 gtx = none ∧
    validateTx witLedger.outputs 2 witTxBad = some (.sumMismatch "txS") :=
  ⟨(value_conservation witLedger ⟨"x", 1, []⟩ gtx).1 (by decide),
   ((value_conservation witLedger witBlockBad witTxBad).2.1 (by decide)).2
     10 rfl (by decide)⟩

/-- Claim C5 (confirmed): the per-input validation rejects with
`InputNotFound` when the referenced output is absent from the ledger
view and with `InputAlreadySpent` when it is present but spent; every
validation rejection leaves the ledger unchanged; and in an accepted
block every input of every non-coinbase transaction was found
unspent. -/
theorem input_lookup_rejection (s : Ledger) (i : TxInput) :
    (lookupOutput s.outputs i.txId i.index = none →
      checkInput s.outputs i = .error (.inputNotFound i.txId i.index)) ∧
    (∀ r, lookupOutput s.outputs i.txId i.index = some r → r.spent = true →
      checkInput s.outputs i = .error (.inputAlreadySpent i.txId i.index)) ∧
    (∀ b e, validate s b = some e → step s b = s) ∧
    (∀ b, validate s b = none → ∀ tx ∈ b.transactions,
      ¬(b.height = 1 ∧ tx.inputs = []) →
      ∀ j ∈ tx.inputs,
        ∃ r, lookupOutput s.outputs j.txId j.index = some r ∧ r.spent = false) := by
  refine ⟨?_, ?_, ?_, ?_⟩
  · intro h
    simp [checkInput, h]
  · intro r hr hsp
    simp [checkInput, hr, hsp]
  · intro b e hval
    simp [step, submitBlock, hval]
  · intro b hval tx htx hnc j hj
    have h3 := (validate_none_parts s b hval).2.2
    have h4 := validateTxs_none_mem _ _ _ h3 tx htx
    have h5 := (validateTx_none_iff _ _ _ hnc).mp h4
    exact inputSum_ok_mem _ _ _ h5 j hj

theorem input_lookup_rejection_witness :
    checkInput witLedger.outputs ⟨"nope", 7⟩ = .error (.inputNotFound "nope" 7) ∧
    checkInput witLedger.outputs ⟨"tx0", 0⟩ = .error (.inputAlreadySpent "tx0" 0) ∧
    step witLedger ⟨"x", 9, []⟩ = witLedger ∧
    (∃ r, lookupOutput witLedger.outputs "tx1" 0 = some r ∧ r.spent = false) :=
  ⟨(input_lookup_rejection witLedger ⟨"nope", 7⟩).1 (by decide),
   (input_lookup_rejection witLedger ⟨"tx0", 0⟩).2.1
     ⟨"tx0", 0, "addr0", 3, true⟩ (by decide) (by decide),
   (input_lookup_rejection witLedger ⟨"x", 0⟩).2.2.1
     ⟨"x", 9, []⟩ (.heightMismatch 2) (by decide),
   (input_lookup_rejection witLedger ⟨"tx1", 0⟩).2.2.2
     blk2 (by decide) tx2 (by decide) (by decide) ⟨"tx1", 0⟩ (by decide)⟩

/-- Claim C9 (confirmed): at any height other than 1 (in particular 2
or more), a transaction with no inputs passes validation exactly when
its output sum is 0, and any nonzero output sum is rejected as
`SumMismatch`. -/
theorem zero_input_nongenesis (rows : List OutputRow) (height : Nat) (tx : Transaction)
    (h2 : 2 ≤ height) (hin : tx.inputs = []) :
    (validateTx rows height tx = none ↔ outSum tx.outputs = 0) ∧
    (outSum tx.outputs ≠ 0 → validateTx rows height tx = some (.sumMismatch tx.id)) := by
  have hnc : ¬(height = 1 ∧ tx.inputs = []) := by
    rintro ⟨h1, _⟩
    omega
  have hsum : inputSum rows tx.inputs = .ok 0 := by
    rw [hin]
    rfl
  constructor
  · rw [validateTx_none_iff rows height tx hnc, hsum]
    constructor
    · intro h
      exact (Except.ok.injEq _ _ |>.mp h).symm
    · intro h
      rw [h]
  · intro hne
    unfold validateTx
    rw [if_neg hnc, hsum]
    simp [Ne.symm hne]

theorem zero_input_nongenesis_witness :
    (validateTx witLedger.outputs 2 ⟨"m0", [], []⟩ = none ↔
      outSum ([] : List TxOutput) = 0) ∧
    validateTx witLedger.outputs 2 ⟨"m1", [], [⟨"a", 5⟩]⟩ = some (.sumMismatch "m1") :=
  ⟨(zero_input_nongenesis witLedger.outputs 2 ⟨"m0", [], []⟩ (by decide) rfl).1,
   (zero_input_nongenesis witLedger.outputs 2 ⟨"m1", [], [⟨"a", 5⟩]⟩
     (by decide) rfl).2 (by decide)⟩

/-- Claim C1 (code bug): the balance-consistency invariant fails on the
code.  Starting from the empty ledger, the genesis block followed by a
height-2 block whose two transactions both spend `(tx1, 0)` are both
accepted, and afterwards `addr1`'s stored balance is −10 while the sum
of its unspent outputs is 0. -/
theorem balance_invariant_violation :
    (replay emptyLedger [gblock, blkDouble]).map
        (fun s => (balanceOf s "addr1", unspentSum s "addr1"))
      = some (-10, 0) := by
  decide

/-- Claim C2 (code bug): validation runs against the committed table
only, so a block whose two transactions spend the same output is
accepted rather than rejected with `InputAlreadySpent`. -/
theorem intra_block_double_spend_accepted :
    txA.inputs = [⟨"tx1", 0⟩] ∧ txB.inputs = [⟨"tx1", 0⟩] ∧
    (replay emptyLedger [gblock]).map (fun s => accepts s blkDouble) = some true := by
  decide

/-- Claim C3 (code bug): when an output referenced by one of the
block's inputs is absent at apply time, the apply phase does not fail:
it commits, inserting the block, transaction and input rows, silently
skipping the spent-flag update and the balance debit. -/
theorem apply_missing_output_commits :
    lookupOutput ghostLedger.outputs "tx1" 0 = none ∧
    applyBlock ghostLedger ghostBlock
      = .ok ⟨[("b1", 1), ("bx", 2)], [("txC", "bx")], [], [⟨"txC", "tx1", 0⟩], []⟩ :=
  ⟨rfl, rfl⟩

/-! ## Balance-table lemmas -/

theorem debitBalance_eq_credit_neg (bal : List (String × Int)) (a : String) (v : Int) :
    debitBalance bal a v = creditBalance bal a (-v) := by
  simp [debitBalance, creditBalance, sub_eq_add_neg]

theorem hasKey_nil (x : String) : hasKey [] x = false := rfl

theorem hasKey_cons (p : String × Int) (bal : List (String × Int)) (x : String) :
    hasKey (p :: bal) x = ((p.1 == x) || hasKey bal x) := by
  simp [hasKey]

theorem hasKey_iff_mem (bal : List (String × Int)) (x : String) :
    hasKey bal x = true ↔ x ∈ bal.map Prod.fst := by
  induction bal with
  | nil => simp [hasKey]
  | cons p rest ih =>
    rw [hasKey_cons]
    simp only [List.map_cons, List.mem_cons, Bool.or_eq_true, beq_iff_eq]
    rw [ih]
    constructor
    · rintro (h | h)
      · exact Or.inl h.symm
      · exact Or.inr h
    · rintro (h | h)
      · exact Or.inl h.symm
      · exact Or.inr h

theorem balVal_nil (x : String) : balVal [] x = 0 := rfl

theorem balVal_cons (p : String × Int) (bal : List (String × Int)) (x : String) :
    balVal (p :: bal) x = if p.1 == x then p.2 else balVal bal x := by
  by_cases h : p.1 == x <;> simp [balVal, List.find?, h]

theorem balVal_of_not_hasKey (bal : List (String × Int)) (x : String)
    (h : hasKey bal x = false) : balVal bal x = 0 := by
  induction bal with
  | nil => rfl
  | cons p rest ih =>
    rw [hasKey_cons] at h
    rcases Bool.or_eq_false_iff.mp h with ⟨h1, h2⟩
    rw [balVal_cons, if_neg (by simp [h1]), ih h2]

theorem keys_creditBalance (bal : List (String × Int)) (a : String) (v : Int) :
    (creditBalance bal a v).map Prod.fst = bal.map Prod.fst := by
  unfold creditBalance
  rw [List.map_map]
  apply List.map_congr_left
  intro p _
  by_cases h : p.1 = a <;> simp [h]

theorem hasKey_congr_keys (b1 b2 : List (String × Int)) (x : String)
    (h : b1.map Prod.fst = b2.map Prod.fst) : hasKey b1 x = hasKey b2 x := by
  by_cases h1 : hasKey b1 x = true
  · rw [h1]
    symm
    rw [hasKey_iff_mem, ← h]
    exact (hasKey_iff_mem b1 x).mp h1
  · have h1' : hasKey b1 x = false := by simpa using h1
    rw [h1']
    symm
    by_cases h2 : hasKey b2 x = true
    · exfalso
      rw [hasKey_iff_mem, ← h, ← hasKey_iff_mem, h1'] at h2
      cases h2
    · simpa using h2

theorem hasKey_creditBalance (bal : List (String × Int)) (a : String) (v : Int) (x : String) :
    hasKey (creditBalance bal a v) x = hasKey bal x :=
  hasKey_congr_keys _ _ _ (keys_creditBalance bal a v)

theorem upsertBalance_of_hasKey (bal : List (String × Int)) (a : String) (v : Int)
    (h : hasKey bal a = true) : upsertBalance bal a v = creditBalance bal a v := by
  unfold upsertBalance creditBalance
  rw [if_pos (show (bal.any fun p => p.1 == a) = true from h)]

theorem upsertBalance_of_not_hasKey (bal : List (String × Int)) (a : String) (v : Int)
    (h : hasKey bal a = false) : upsertBalance bal a v = bal ++ [(a, v)] := by
  unfold upsertBalance
  have h' : (bal.any fun p => p.1 == a) = false := h
  rw [if_neg (by simp [h'])]

theorem find?_eq_none_of_not_hasKey (bal : List (String × Int)) (x : String)
    (h : hasKey bal x = false) : bal.find? (fun p => p.1 == x) = none := by
  induction bal with
  | nil => rfl
  | cons p rest ih =>
    rw [hasKey_cons] at h
    rcases Bool.or_eq_false_iff.mp h with ⟨h1, h2⟩
    simp [List.find?, h1, ih h2]

theorem balVal_append_of_not_hasKey (bal l : List (String × Int)) (x : String)
    (h : hasKey bal x = false) : balVal (bal ++ l) x = balVal l x := by
  unfold balVal
  rw [List.find?_append, find?_eq_none_of_not_hasKey bal x h]
  rfl

theorem balVal_credit_ne (bal : List (String × Int)) (a : String) (v : Int) (x : String)
    (hx : x ≠ a) : balVal (creditBalance bal a v) x = balVal bal x := by
  induction bal with
  | nil => rfl
  | cons p rest ih =>
    by_cases h : p.1 == a
    · have hpa : p.1 = a := by simpa using h
      simp only [creditBalance, List.map_cons, if_pos h]
      rw [balVal_cons, balVal_cons]
      have hpx : ¬((p.1 : String) == x) = true := by
        simp [hpa]
        exact fun hh => hx hh.symm
      rw [if_neg hpx, if_neg hpx]
      simpa [creditBalance] using ih
    · simp only [creditBalance, List.map_cons, if_neg h]
      rw [balVal_cons, balVal_cons]
      by_cases hpx : p.1 == x
      · rw [if_pos hpx, if_pos hpx]
      · rw [if_neg hpx, if_neg hpx]
        simpa [creditBalance] using ih

theorem balVal_credit_self (bal : List (String × Int)) (a : String) (v : Int)
    (h : hasKey bal a = true) : balVal (creditBalance bal a v) a = balVal bal a + v := by
  induction bal with
  | nil => simp [hasKey] at h
  | cons p rest ih =>
    by_cases hpa : p.1 == a
    · simp only [creditBalance, List.map_cons, if_pos hpa]
      rw [balVal_cons, balVal_cons, if_pos hpa, if_pos hpa]
    · rw [hasKey_cons] at h
      have h2 : hasKey rest a = true := by simpa [hpa] using h
      simp only [creditBalance, List.map_cons, if_neg hpa]
      rw [balVal_cons, balVal_cons, if_neg hpa, if_neg hpa]
      simpa [creditBalance] using ih h2

theorem balVal_credit (bal : List (String × Int)) (a : String) (v : Int) (x : String)
    (h : hasKey bal a = true) :
    balVal (creditBalance bal a v) x = if x = a then balVal bal x + v else balVal bal x := by
  by_cases hx : x = a
  · subst hx
    rw [if_pos rfl, balVal_credit_self bal x v h]
  · rw [if_neg hx, balVal_credit_ne bal a v x hx]

theorem balVal_upsert (bal : List (String × Int)) (a : String) (v : Int) (x : String) :
    balVal (upsertBalance bal a v) x = if x = a then balVal bal x + v else balVal bal x := by
  by_cases hk : hasKey bal a = true
  · rw [upsertBalance_of_hasKey bal a v hk, balVal_credit bal a v x hk]
  · have hk' : hasKey bal a = false := by simpa using hk
    rw [upsertBalance_of_not_hasKey bal a v hk']
    by_cases hx : x = a
    · subst hx
      rw [if_pos rfl, balVal_append_of_not_hasKey bal _ x hk',
        balVal_of_not_hasKey bal x hk']
      simp [balVal_cons]
    · rw [if_neg hx]
      unfold balVal
      rw [List.find?_append]
      cases hf : bal.find? (fun p => p.1 == x) with
      | some p => rfl
      | none =>
        have hax : ((a : String) == x) = false :=
          beq_eq_false_iff_ne.mpr (fun hh => hx hh.symm)
        have hfind : (((a, v) : String × Int) :: []).find? (fun p => p.1 == x) = none := by
          simp [List.find?, hax]
        simp [Option.orElse, hfind]

theorem hasKey_upsert_self (bal : List (String × Int)) (a : String) (v : Int) :
    hasKey (upsertBalance bal a v) a = true := by
  by_cases hk : hasKey bal a = true
  · rw [upsertBalance_of_hasKey bal a v hk, hasKey_creditBalance]
    exact hk
  · have hk' : hasKey bal a = false := by simpa using hk
    rw [upsertBalance_of_not_hasKey bal a v hk', hasKey_iff_mem]
    simp

theorem hasKey_upsert_mono (bal : List (String × Int)) (a : String) (v : Int) (x : String)
    (h : hasKey bal x = true) : hasKey (upsertBalance bal a v) x = true := by
  by_cases hk : hasKey bal a = true
  · rw [upsertBalance_of_hasKey bal a v hk, hasKey_creditBalance]
    exact h
  · have hk' : hasKey bal a = false := by simpa using hk
    rw [upsertBalance_of_not_hasKey bal a v hk', hasKey_iff_mem]
    rw [hasKey_iff_mem] at h
    simp only [List.map_append, List.mem_append]
    exact Or.inl h

theorem hasKey_upsert_inv (bal : List (String × Int)) (a : String) (v : Int) (x : String)
    (h : hasKey (upsertBalance bal a v) x = true) : hasKey bal x = true ∨ x = a := by
  by_cases hk : hasKey bal a = true
  · rw [upsertBalance_of_hasKey bal a v hk, hasKey_creditBalance] at h
    exact Or.inl h
  · have hk' : hasKey bal a = false := by simpa using hk
    rw [upsertBalance_of_not_hasKey bal a v hk', hasKey_iff_mem] at h
    simp only [List.map_append, List.mem_append] at h
    rcases h with h | h
    · exact Or.inl ((hasKey_iff_mem bal x).mpr h)
    · simp at h
      exact Or.inr h

theorem keys_upsert_of_hasKey (bal : List (String × Int)) (a : String) (v : Int)
    (h : hasKey bal a = true) :
    (upsertBalance bal a v).map Prod.fst = bal.map Prod.fst := by
  rw [upsertBalance_of_hasKey bal a v h, keys_creditBalance]

theorem balances_ext (b1 b2 : List (String × Int))
    (hk : b1.map Prod.fst = b2.map Prod.fst)
    (hnd : (b1.map Prod.fst).Nodup)
    (hv : ∀ x, balVal b1 x = balVal b2 x) : b1 = b2 := by
  induction b1 generalizing b2 with
  | nil =>
    cases b2 with
    | nil => rfl
    | cons q r2 => simp at hk
  | cons p r1 ih =>
    cases b2 with
    | nil => simp at hk
    | cons q r2 =>
      simp only [List.map_cons, List.cons.injEq] at hk
      rcases hk with ⟨hpq, hrest⟩
      simp only [List.map_cons, List.nodup_cons] at hnd
      rcases hnd with ⟨hp1, hnd'⟩
      have hval : p.2 = q.2 := by
        have := hv p.1
        rw [balVal_cons, balVal_cons, if_pos (by simp), if_pos (by simp [hpq])] at this
        exact this
      have hr : r1 = r2 := by
        apply ih r2 hrest hnd'
        intro x
        by_cases hx : p.1 = x
        · subst hx
          have h1 : hasKey r1 p.1 = false := by
            by_cases hhh : hasKey r1 p.1 = true
            · exact absurd ((hasKey_iff_mem r1 p.1).mp hhh) hp1
            · simpa using hhh
          have h2 : hasKey r2 p.1 = false := by
            by_cases hhh : hasKey r2 p.1 = true
            · rw [hasKey_iff_mem, ← hrest] at hhh
              exact absurd hhh hp1
            · simpa using hhh
          rw [balVal_of_not_hasKey r1 p.1 h1, balVal_of_not_hasKey r2 p.1 h2]
        · have := hv x
          rw [balVal_cons, balVal_cons, if_neg (by simp [hx]),
            if_neg (by simp [hpq ▸ hx])] at this
          exact this
      cases p with
      | mk pa pb =>
        cases q with
        | mk qa qb =>
          simp only at hpq hval
          rw [hpq, hval, hr]

/-! ## Balance-program lemmas -/

theorem runOps_nil (bal : List (String × Int)) : runOps bal [] = bal := rfl

theorem runOps_cons (bal : List (String × Int)) (op : BalOp) (ops : List BalOp) :
    runOps bal (op :: ops) = runOps (runOp bal op) ops := rfl

theorem runOps_append (bal : List (String × Int)) (l1 l2 : List BalOp) :
    runOps bal (l1 ++ l2) = runOps (runOps bal l1) l2 :=
  List.foldl_append _ _ _ _

theorem hasKey_runOp_mono (bal : List (String × Int)) (op : BalOp) (x : String)
    (h : hasKey bal x = true) : hasKey (runOp bal op) x = true := by
  cases op with
  | ups a v => exact hasKey_upsert_mono bal a v x h
  | adj a v => rw [runOp, hasKey_creditBalance]; exact h

theorem hasKey_runOps_mono (ops : List BalOp) (bal : List (String × Int)) (x : String)
    (h : hasKey bal x = true) : hasKey (runOps bal ops) x = true := by
  induction ops generalizing bal with
  | nil => exact h
  | cons op rest ih => exact ih (runOp bal op) (hasKey_runOp_mono bal op x h)

theorem hasKey_runOps_inv (ops : List BalOp) (bal : List (String × Int)) (x : String)
    (h : hasKey (runOps bal ops) x = true) :
    hasKey bal x = true ∨ ∃ v, BalOp.ups x v ∈ ops := by
  induction ops generalizing bal with
  | nil => exact Or.inl h
  | cons op rest ih =>
    rcases ih (runOp bal op) h with h1 | h1
    · cases op with
      | ups a v =>
        rcases hasKey_upsert_inv bal a v x h1 with h2 | h2
        · exact Or.inl h2
        · subst h2; exact Or.inr ⟨v, List.mem_cons_self _ _⟩
      | adj a v =>
        rw [runOp, hasKey_creditBalance] at h1
        exact Or.inl h1
    · rcases h1 with ⟨v, hv⟩
      exact Or.inr ⟨v, List.mem_cons_of_mem _ hv⟩

theorem keys_runOps_present (ops : List BalOp) (bal : List (String × Int))
    (h : ∀ op ∈ ops, ∀ a v, op = BalOp.ups a v → hasKey bal a = true) :
    (runOps bal ops).map Prod.fst = bal.map Prod.fst := by
  induction ops generalizing bal with
  | nil => rfl
  | cons op rest ih =>
    have hkeys : (runOp bal op).map Prod.fst = bal.map Prod.fst := by
      cases op with
      | ups a v =>
        exact keys_upsert_of_hasKey bal a v (h _ (List.mem_cons_self _ _) a v rfl)
      | adj a v => exact keys_creditBalance bal a v
    rw [runOps_cons, ih (runOp bal op) ?_, hkeys]
    intro op2 hop2 a v hop2e
    rw [hasKey_congr_keys _ _ _ hkeys]
    exact h op2 (List.mem_cons_of_mem _ hop2) a v hop2e

theorem keys_nodup_runOps (ops : List BalOp) (bal : List (String × Int))
    (h : (bal.map Prod.fst).Nodup) : ((runOps bal ops).map Prod.fst).Nodup := by
  induction ops generalizing bal with
  | nil => exact h
  | cons op rest ih =>
    apply ih
    cases op with
    | ups a v =>
      rw [runOp]
      by_cases hk : hasKey bal a = true
      · rw [keys_upsert_of_hasKey bal a v hk]; exact h
      · have hk' : hasKey bal a = false := by simpa using hk
        rw [upsertBalance_of_not_hasKey bal a v hk']
        simp only [List.map_append, List.map_cons, List.map_nil]
        rw [List.nodup_append]
        refine ⟨h, List.nodup_singleton a, ?_⟩
        intro y hy
        simp only [List.mem_singleton]
        intro hya
        subst hya
        exact absurd ((hasKey_iff_mem bal y).mpr hy) (by simp [hk'])
    | adj a v => rw [runOp, keys_creditBalance]; exact h

theorem opsDelta_nil (x : String) : opsDelta [] x = 0 := rfl

theorem opsDelta_cons (op : BalOp) (ops : List BalOp) (x : String) :
    opsDelta (op :: ops) x = (if opKey op = x then opVal op else 0) + opsDelta ops x := rfl

theorem opsDelta_append (l1 l2 : List BalOp) (x : String) :
    opsDelta (l1 ++ l2) x = opsDelta l1 x + opsDelta l2 x := by
  induction l1 with
  | nil => simp [opsDelta_nil]
  | cons op rest ih =>
    rw [List.cons_append, opsDelta_cons, opsDelta_cons, ih, add_assoc]

theorem OpsOk_nil (bal : List (String × Int)) : OpsOk bal [] := trivial

theorem OpsOk_cons (bal : List (String × Int)) (op : BalOp) (ops : List BalOp) :
    OpsOk bal (op :: ops) ↔
      (match op with
       | .ups _ _ => True
       | .adj a _ => hasKey bal a = true) ∧ OpsOk (runOp bal op) ops := Iff.rfl

theorem OpsOk_append (bal : List (String × Int)) (l1 l2 : List BalOp) :
    OpsOk bal (l1 ++ l2) ↔ OpsOk bal l1 ∧ OpsOk (runOps bal l1) l2 := by
  induction l1 generalizing bal with
  | nil => simp [OpsOk_nil, runOps_nil, OpsOk]
  | cons op rest ih =>
    rw [List.cons_append, OpsOk_cons, OpsOk_cons, ih (runOp bal op), runOps_cons,
      and_assoc]

theorem OpsOk_of_adj_present (ops : List BalOp) (bal : List (String × Int))
    (h : ∀ a v, BalOp.adj a v ∈ ops → hasKey bal a = true) : OpsOk bal ops := by
  induction ops generalizing bal with
  | nil => trivial
  | cons op rest ih =>
    rw [OpsOk_cons]
    constructor
    · cases op with
      | ups a v => trivial
      | adj a v => exact h a v (List.mem_cons_self _ _)
    · apply ih
      intro a v hmem
      exact hasKey_runOp_mono bal op a (h a v (List.mem_cons_of_mem _ hmem))

theorem balVal_runOp (bal : List (String × Int)) (op : BalOp) (x : String)
    (h : match op with | .ups _ _ => True | .adj a _ => hasKey bal a = true) :
    balVal (runOp bal op) x
      = balVal bal x + (if opKey op = x then opVal op else 0) := by
  cases op with
  | ups a v =>
    rw [runOp, balVal_upsert bal a v x, opKey, opVal]
    by_cases hx : x = a
    · subst hx; simp
    · rw [if_neg hx, if_neg (fun hh => hx hh.symm)]; simp
  | adj a v =>
    rw [runOp, balVal_credit bal a v x h, opKey, opVal]
    by_cases hx : x = a
    · subst hx; simp
    · rw [if_neg hx, if_neg (fun hh => hx hh.symm)]; simp

theorem balVal_runOps (ops : List BalOp) (bal : List (String × Int))
    (h : OpsOk bal ops) (x : String) :
    balVal (runOps bal ops) x = balVal bal x + opsDelta ops x := by
  induction ops generalizing bal with
  | nil => simp [runOps_nil, opsDelta_nil]
  | cons op rest ih =>
    rw [OpsOk_cons] at h
    rw [runOps_cons, ih (runOp bal op) h.2, balVal_runOp bal op x h.1, opsDelta_cons]
    ring

/-! ## Output-table lemmas -/

theorem lookupOutput_map_preserve (rows : List OutputRow) (f : OutputRow → OutputRow)
    (hf : ∀ r, (f r).tx_id = r.tx_id ∧ (f r).output_index = r.output_index)
    (k : String) (i : Nat) :
    lookupOutput (rows.map f) k i = (lookupOutput rows k i).map f := by
  unfold lookupOutput
  rw [List.find?_map]
  have hp : ((fun r => r.tx_id == k && r.output_index == i) ∘ f)
      = (fun r => r.tx_id == k && r.output_index == i) := by
    funext r
    show ((f r).tx_id == k && (f r).output_index == i) = _
    rw [(hf r).1, (hf r).2]
  rw [hp]

theorem markSpent_fields (k : String) (i : Nat) (r : OutputRow) :
    ((fun r => if r.tx_id == k && r.output_index == i then
        { r with spent := true } else r) r).tx_id = r.tx_id ∧
    ((fun r => if r.tx_id == k && r.output_index == i then
        { r with spent := true } else r) r).output_index = r.output_index := by
  show ((if r.tx_id == k && r.output_index == i then
      { r with spent := true } else r).tx_id = r.tx_id) ∧
    ((if r.tx_id == k && r.output_index == i then
      { r with spent := true } else r).output_index = r.output_index)
  by_cases h : (r.tx_id == k && r.output_index == i) = true
  · rw [if_pos h]
    exact ⟨rfl, rfl⟩
  · rw [if_neg h]
    exact ⟨rfl, rfl⟩

theorem markUnspent_fields (k : String) (i : Nat) (r : OutputRow) :
    ((fun r => if r.tx_id == k && r.output_index == i then
        { r with spent := false } else r) r).tx_id = r.tx_id ∧
    ((fun r => if r.tx_id == k && r.output_index == i then
        { r with spent := false } else r) r).output_index = r.output_index := by
  show ((if r.tx_id == k && r.output_index == i then
      { r with spent := false } else r).tx_id = r.tx_id) ∧
    ((if r.tx_id == k && r.output_index == i then
      { r with spent := false } else r).output_index = r.output_index)
  by_cases h : (r.tx_id == k && r.output_index == i) = true
  · rw [if_pos h]
    exact ⟨rfl, rfl⟩
  · rw [if_neg h]
    exact ⟨rfl, rfl⟩

theorem lookupAV_markSpent (rows : List OutputRow) (k : String) (i : Nat)
    (x : String) (y : Nat) :
    lookupAV (markSpent rows k i) x y = lookupAV rows x y := by
  unfold lookupAV markSpent
  rw [lookupOutput_map_preserve rows _ (markSpent_fields k i), Option.map_map]
  have hc : ((fun r : OutputRow => (r.address, r.value)) ∘
      (fun r => if r.tx_id == k && r.output_index == i then { r with spent := true } else r))
      = (fun r : OutputRow => (r.address, r.value)) := by
    funext r
    show ((if r.tx_id == k && r.output_index == i then
      { r with spent := true } else r).address,
      (if r.tx_id == k && r.output_index == i then
      { r with spent := true } else r).value) = (r.address, r.value)
    by_cases h : (r.tx_id == k && r.output_index == i) = true
    · rw [if_pos h]
    · rw [if_neg h]
  rw [hc]

theorem lookupAV_markUnspent (rows : List OutputRow) (k : String) (i : Nat)
    (x : String) (y : Nat) :
    lookupAV (markUnspent rows k i) x y = lookupAV rows x y := by
  unfold lookupAV markUnspent
  rw [lookupOutput_map_preserve rows _ (markUnspent_fields k i), Option.map_map]
  have hc : ((fun r : OutputRow => (r.address, r.value)) ∘
      (fun r => if r.tx_id == k && r.output_index == i then { r with spent := false } else r))
      = (fun r : OutputRow => (r.address, r.value)) := by
    funext r
    show ((if r.tx_id == k && r.output_index == i then
      { r with spent := false } else r).address,
      (if r.tx_id == k && r.output_index == i then
      { r with spent := false } else r).value) = (r.address, r.value)
    by_cases h : (r.tx_id == k && r.output_index == i) = true
    · rw [if_pos h]
    · rw [if_neg h]
  rw [hc]

theorem lookupAV_markAll (l : List TxInput) (rows : List OutputRow)
    (x : String) (y : Nat) :
    lookupAV (markAll rows l) x y = lookupAV rows x y := by
  induction l generalizing rows with
  | nil => rfl
  | cons j rest ih =>
    show lookupAV (markAll (markSpent rows j.txId j.index) rest) x y = _
    rw [ih (markSpent rows j.txId j.index), lookupAV_markSpent]

theorem lookupAV_unmarkAll (l : List TxInput) (rows : List OutputRow)
    (x : String) (y : Nat) :
    lookupAV (unmarkAll rows l) x y = lookupAV rows x y := by
  induction l generalizing rows with
  | nil => rfl
  | cons j rest ih =>
    show lookupAV (unmarkAll (markUnspent rows j.txId j.index) rest) x y = _
    rw [ih (markUnspent rows j.txId j.index), lookupAV_markUnspent]

theorem lookupOutput_append_left (l1 l2 : List OutputRow) (k : String) (i : Nat)
    (r : OutputRow) (h : lookupOutput l1 k i = some r) :
    lookupOutput (l1 ++ l2) k i = some r := by
  unfold lookupOutput at h ⊢
  rw [List.find?_append, h]
  rfl

theorem lookupAV_append_left (l1 l2 : List OutputRow) (k : String) (i : Nat)
    (r : OutputRow) (h : lookupOutput l1 k i = some r) :
    lookupAV (l1 ++ l2) k i = lookupAV l1 k i := by
  unfold lookupAV
  rw [lookupOutput_append_left l1 l2 k i r h, h]

theorem markSpent_append (l1 l2 : List OutputRow) (k : String) (i : Nat)
    (h : ∀ r ∈ l2, ¬(r.tx_id = k ∧ r.output_index = i)) :
    markSpent (l1 ++ l2) k i = markSpent l1 k i ++ l2 := by
  unfold markSpent
  rw [List.map_append]
  congr 1
  have hid : ∀ r ∈ l2, (if r.tx_id == k && r.output_index == i then
      { r with spent := true } else r) = id r := by
    intro r hr
    have hc : (r.tx_id == k && r.output_index == i) = false := by
      rcases Decidable.em (r.tx_id = k) with h1 | h1
      · rcases Decidable.em (r.output_index = i) with h2 | h2
        · exact absurd ⟨h1, h2⟩ (h r hr)
        · simp [h2]
      · simp [h1]
    rw [hc]
    rfl
  rw [List.map_congr_left hid, List.map_id]

theorem markUnspent_append (l1 l2 : List OutputRow) (k : String) (i : Nat)
    (h : ∀ r ∈ l2, ¬(r.tx_id = k ∧ r.output_index = i)) :
    markUnspent (l1 ++ l2) k i = markUnspent l1 k i ++ l2 := by
  unfold markUnspent
  rw [List.map_append]
  congr 1
  have hid : ∀ r ∈ l2, (if r.tx_id == k && r.output_index == i then
      { r with spent := false } else r) = id r := by
    intro r hr
    have hc : (r.tx_id == k && r.output_index == i) = false := by
      rcases Decidable.em (r.tx_id = k) with h1 | h1
      · rcases Decidable.em (r.output_index = i) with h2 | h2
        · exact absurd ⟨h1, h2⟩ (h r hr)
        · simp [h2]
      · simp [h1]
    rw [hc]
    rfl
  rw [List.map_congr_left hid, List.map_id]

theorem markAll_append (refs : List TxInput) (l1 l2 : List OutputRow)
    (h : ∀ j ∈ refs, ∀ r ∈ l2, ¬(r.tx_id = j.txId ∧ r.output_index = j.index)) :
    markAll (l1 ++ l2) refs = markAll l1 refs ++ l2 := by
  induction refs generalizing l1 with
  | nil => rfl
  | cons j rest ih =>
    show markAll (markSpent (l1 ++ l2) j.txId j.index) rest = markAll l1 (j :: rest) ++ l2
    rw [markSpent_append l1 l2 j.txId j.index
        (fun r hr => h j (List.mem_cons_self _ _) r hr)]
    exact ih (markSpent l1 j.txId j.index)
      (fun j2 hj2 r hr => h j2 (List.mem_cons_of_mem _ hj2) r hr)

theorem unmarkAll_append (refs : List TxInput) (l1 l2 : List OutputRow)
    (h : ∀ j ∈ refs, ∀ r ∈ l2, ¬(r.tx_id = j.txId ∧ r.output_index = j.index)) :
    unmarkAll (l1 ++ l2) refs = unmarkAll l1 refs ++ l2 := by
  induction refs generalizing l1 with
  | nil => rfl
  | cons j rest ih =>
    show unmarkAll (markUnspent (l1 ++ l2) j.txId j.index) rest = unmarkAll l1 (j :: rest) ++ l2
    rw [markUnspent_append l1 l2 j.txId j.index
        (fun r hr => h j (List.mem_cons_self _ _) r hr)]
    exact ih (markUnspent l1 j.txId j.index)
      (fun j2 hj2 r hr => h j2 (List.mem_cons_of_mem _ hj2) r hr)

/-- Whether a row's key is referenced by one of the inputs. -/
def matchesAny (refs : List TxInput) (r : OutputRow) : Bool :=
  refs.any (fun j => r.tx_id == j.txId && r.output_index == j.index)

theorem matchesAny_setSpent (refs : List TxInput) (r : OutputRow) (b : Bool) :
    matchesAny refs { r with spent := b } = matchesAny refs r := rfl

theorem markAll_eq_map (refs : List TxInput) (rows : List OutputRow) :
    markAll rows refs
      = rows.map (fun r => if matchesAny refs r then { r with spent := true } else r) := by
  induction refs generalizing rows with
  | nil =>
    show rows = _
    have hmaps : rows.map
        (fun r => if matchesAny [] r then { r with spent := true } else r)
        = rows.map id := by
      apply List.map_congr_left
      intro r _
      show (if matchesAny [] r then { r with spent := true } else r) = r
      rw [show matchesAny [] r = false from rfl]
      rfl
    rw [hmaps, List.map_id]
  | cons j rest ih =>
    show markAll (markSpent rows j.txId j.index) rest = _
    rw [ih (markSpent rows j.txId j.index)]
    unfold markSpent
    rw [List.map_map]
    apply List.map_congr_left
    intro r _
    have hcons : matchesAny (j :: rest) r
        = ((r.tx_id == j.txId && r.output_index == j.index) || matchesAny rest r) := by
      unfold matchesAny
      rw [List.any_cons]
    by_cases hj1 : r.tx_id = j.txId <;> by_cases hj2 : r.output_index = j.index <;>
      by_cases hm : matchesAny rest r = true <;>
        simp [hj1, hj2, hm, hcons, matchesAny_setSpent]

theorem unmarkAll_eq_map (refs : List TxInput) (rows : List OutputRow) :
    unmarkAll rows refs
      = rows.map (fun r => if matchesAny refs r then { r with spent := false } else r) := by
  induction refs generalizing rows with
  | nil =>
    show rows = _
    have hmaps : rows.map
        (fun r => if matchesAny [] r then { r with spent := false } else r)
        = rows.map id := by
      apply List.map_congr_left
      intro r _
      show (if matchesAny [] r then { r with spent := false } else r) = r
      rw [show matchesAny [] r = false from rfl]
      rfl
    rw [hmaps, List.map_id]
  | cons j rest ih =>
    show unmarkAll (markUnspent rows j.txId j.index) rest = _
    rw [ih (markUnspent rows j.txId j.index)]
    unfold markUnspent
    rw [List.map_map]
    apply List.map_congr_left
    intro r _
    have hcons : matchesAny (j :: rest) r
        = ((r.tx_id == j.txId && r.output_index == j.index) || matchesAny rest r) := by
      unfold matchesAny
      rw [List.any_cons]
    by_cases hj1 : r.tx_id = j.txId <;> by_cases hj2 : r.output_index = j.index <;>
      by_cases hm : matchesAny rest r = true <;>
        simp [hj1, hj2, hm, hcons, matchesAny_setSpent]

theorem unmarkAll_markAll (refs : List TxInput) (rows : List OutputRow)
    (h : ∀ r ∈ rows, matchesAny refs r = true → r.spent = false) :
    unmarkAll (markAll rows refs) refs = rows := by
  rw [markAll_eq_map, unmarkAll_eq_map, List.map_map]
  have hpt : ∀ r ∈ rows,
      ((fun r => if matchesAny refs r = true then { r with spent := false } else r) ∘
       (fun r => if matchesAny refs r = true then { r with spent := true } else r)) r
        = id r := by
    intro r hr
    by_cases hm : matchesAny refs r = true
    · have hsp := h r hr hm
      cases r with
      | mk t oi a v sp =>
        simp only at hsp
        subst hsp
        have hm2 : matchesAny refs ⟨t, oi, a, v, true⟩ = true := hm
        simp [hm, hm2]
    · simp [hm]
  rw [List.map_congr_left hpt, List.map_id]

/-! ## Program cancellation and congruence -/

theorem opsDelta_outDebit_outRows (outs : List TxOutput) (txId : String) (i : Nat)
    (x : String) :
    opsDelta (outDebitOps (outRows txId i outs)) x = - opsDelta (upsOps outs) x := by
  induction outs generalizing i with
  | nil => simp [outRows, outDebitOps, upsOps, opsDelta_nil]
  | cons o rest ih =>
    show opsDelta (BalOp.adj o.address (-o.value) :: outDebitOps (outRows txId (i + 1) rest)) x
        = - opsDelta (BalOp.ups o.address o.value :: upsOps rest) x
    rw [opsDelta_cons, opsDelta_cons, ih (i + 1)]
    show (if o.address = x then -o.value else 0) + -opsDelta (upsOps rest) x
        = -((if o.address = x then o.value else 0) + opsDelta (upsOps rest) x)
    by_cases hx : o.address = x <;> simp [hx] <;> ring

theorem opsDelta_refCredit_refDebit (l : List TxInput) (rows : List OutputRow) (x : String) :
    opsDelta (refCreditOps rows l) x = - opsDelta (refDebitOps rows l) x := by
  induction l with
  | nil => simp [refCreditOps, refDebitOps, opsDelta_nil]
  | cons j rest ih =>
    show opsDelta ((match lookupAV rows j.txId j.index with
        | some av => [BalOp.adj av.1 av.2]
        | none => []) ++ refCreditOps rows rest) x
      = - opsDelta ((match lookupAV rows j.txId j.index with
        | some av => [BalOp.adj av.1 (-av.2)]
        | none => []) ++ refDebitOps rows rest) x
    cases hl : lookupAV rows j.txId j.index with
    | none =>
      simp only [List.nil_append]
      rw [ih]
    | some av =>
      rw [opsDelta_append, opsDelta_append, ih]
      by_cases hx : av.1 = x <;>
        simp only [opsDelta_cons, opsDelta_nil, opKey, opVal, hx, if_pos, if_neg,
          ite_true, ite_false, if_true, if_false] <;>
        ring_nf <;>
        simp [hx] <;>
        ring

theorem opsDelta_blockOps_rbOps (ts : List Transaction) (rows : List OutputRow) (x : String) :
    opsDelta (blockOps rows ts) x + opsDelta (rbOps rows ts) x = 0 := by
  induction ts with
  | nil => simp [blockOps, rbOps, opsDelta_nil]
  | cons t rest ih =>
    show opsDelta (upsOps t.outputs ++ refDebitOps rows t.inputs ++ blockOps rows rest) x
        + opsDelta (refCreditOps rows t.inputs
            ++ outDebitOps (outRows t.id 0 t.outputs) ++ rbOps rows rest) x = 0
    rw [opsDelta_append, opsDelta_append, opsDelta_append, opsDelta_append,
      opsDelta_refCredit_refDebit, opsDelta_outDebit_outRows]
    have := ih
    ring_nf
    ring_nf at this
    linarith

theorem refDebitOps_congr (l : List TxInput) (rows1 rows2 : List OutputRow)
    (h : ∀ i ∈ l, lookupAV rows1 i.txId i.index = lookupAV rows2 i.txId i.index) :
    refDebitOps rows1 l = refDebitOps rows2 l := by
  induction l with
  | nil => rfl
  | cons j rest ih =>
    show (match lookupAV rows1 j.txId j.index with
        | some av => [BalOp.adj av.1 (-av.2)]
        | none => []) ++ refDebitOps rows1 rest
      = (match lookupAV rows2 j.txId j.index with
        | some av => [BalOp.adj av.1 (-av.2)]
        | none => []) ++ refDebitOps rows2 rest
    rw [h j (List.mem_cons_self _ _), ih (fun i hi => h i (List.mem_cons_of_mem _ hi))]

theorem refCreditOps_congr (l : List TxInput) (rows1 rows2 : List OutputRow)
    (h : ∀ i ∈ l, lookupAV rows1 i.txId i.index = lookupAV rows2 i.txId i.index) :
    refCreditOps rows1 l = refCreditOps rows2 l := by
  induction l with
  | nil => rfl
  | cons j rest ih =>
    show (match lookupAV rows1 j.txId j.index with
        | some av => [BalOp.adj av.1 av.2]
        | none => []) ++ refCreditOps rows1 rest
      = (match lookupAV rows2 j.txId j.index with
        | some av => [BalOp.adj av.1 av.2]
        | none => []) ++ refCreditOps rows2 rest
    rw [h j (List.mem_cons_self _ _), ih (fun i hi => h i (List.mem_cons_of_mem _ hi))]

theorem blockOps_congr (ts : List Transaction) (rows1 rows2 : List OutputRow)
    (h : ∀ t ∈ ts, ∀ i ∈ t.inputs,
      lookupAV rows1 i.txId i.index = lookupAV rows2 i.txId i.index) :
    blockOps rows1 ts = blockOps rows2 ts := by
  induction ts with
  | nil => rfl
  | cons t rest ih =>
    show upsOps t.outputs ++ refDebitOps rows1 t.inputs ++ blockOps rows1 rest
        = upsOps t.outputs ++ refDebitOps rows2 t.inputs ++ blockOps rows2 rest
    rw [refDebitOps_congr t.inputs rows1 rows2 (h t (List.mem_cons_self _ _)),
      ih (fun t2 ht2 => h t2 (List.mem_cons_of_mem _ ht2))]

theorem rbOps_congr (ts : List Transaction) (rows1 rows2 : List OutputRow)
    (h : ∀ t ∈ ts, ∀ i ∈ t.inputs,
      lookupAV rows1 i.txId i.index = lookupAV rows2 i.txId i.index) :
    rbOps rows1 ts = rbOps rows2 ts := by
  induction ts with
  | nil => rfl
  | cons t rest ih =>
    show refCreditOps rows1 t.inputs ++ outDebitOps (outRows t.id 0 t.outputs) ++ rbOps rows1 rest
        = refCreditOps rows2 t.inputs ++ outDebitOps (outRows t.id 0 t.outputs) ++ rbOps rows2 rest
    rw [refCreditOps_congr t.inputs rows1 rows2 (h t (List.mem_cons_self _ _)),
      ih (fun t2 ht2 => h t2 (List.mem_cons_of_mem _ ht2))]

/-! ## Closed forms of the apply phase -/

theorem applyOutputs_spec (outs : List TxOutput) (txId : String) (s : Ledger) (i : Nat) :
    applyOutputs txId s i outs
      = ⟨s.blocks, s.transactions, s.outputs ++ outRows txId i outs, s.inputs,
         runOps s.balances (upsOps outs)⟩ := by
  induction outs generalizing s i with
  | nil =>
    show s = _
    cases s
    simp [outRows, upsOps, runOps_nil]
  | cons o rest ih =>
    show applyOutputs txId
        { s with outputs := s.outputs ++ [⟨txId, i, o.address, o.value, false⟩],
                 balances := upsertBalance s.balances o.address o.value } (i + 1) rest = _
    rw [ih]
    show Ledger.mk s.blocks s.transactions
        ((s.outputs ++ [⟨txId, i, o.address, o.value, false⟩]) ++ outRows txId (i + 1) rest)
        s.inputs (runOps (upsertBalance s.balances o.address o.value) (upsOps rest)) = _
    rw [List.append_assoc]
    rfl

theorem applyInputs_spec (l : List TxInput) (txId : String) (s : Ledger) :
    applyInputs txId s l
      = ⟨s.blocks, s.transactions, markAll s.outputs l, s.inputs ++ inRows txId l,
         runOps s.balances (refDebitOps s.outputs l)⟩ := by
  induction l generalizing s with
  | nil =>
    show s = _
    cases s
    simp [markAll, inRows, refDebitOps, runOps_nil]
  | cons j rest ih =>
    have hstep : applyInputs txId s (j :: rest)
        = applyInputs txId
            (match lookupOutput (markSpent s.outputs j.txId j.index) j.txId j.index with
             | some r =>
               { s with inputs := s.inputs ++ [⟨txId, j.txId, j.index⟩],
                        outputs := markSpent s.outputs j.txId j.index,
                        balances := debitBalance s.balances r.address r.value }
             | none =>
               { s with inputs := s.inputs ++ [⟨txId, j.txId, j.index⟩],
                        outputs := markSpent s.outputs j.txId j.index }) rest := by
      show applyInputs txId s (j :: rest) = _
      rw [applyInputs]
    rw [hstep]
    have hstab : ∀ x y, lookupAV (markSpent s.outputs j.txId j.index) x y
        = lookupAV s.outputs x y := fun x y => lookupAV_markSpent s.outputs _ _ x y
    cases hl : lookupOutput (markSpent s.outputs j.txId j.index) j.txId j.index with
    | none =>
      rw [ih]
      have hav : lookupAV s.outputs j.txId j.index = none := by
        rw [← hstab j.txId j.index]
        unfold lookupAV
        rw [hl]
        rfl
      show Ledger.mk s.blocks s.transactions
          (markAll (markSpent s.outputs j.txId j.index) rest)
          ((s.inputs ++ [⟨txId, j.txId, j.index⟩]) ++ inRows txId rest)
          (runOps s.balances (refDebitOps (markSpent s.outputs j.txId j.index) rest)) = _
      rw [List.append_assoc,
        refDebitOps_congr rest _ _ (fun i _ => hstab i.txId i.index)]
      show _ = Ledger.mk s.blocks s.transactions (markAll s.outputs (j :: rest))
          (s.inputs ++ inRows txId (j :: rest))
          (runOps s.balances (refDebitOps s.outputs (j :: rest)))
      rw [show refDebitOps s.outputs (j :: rest)
          = (match lookupAV s.outputs j.txId j.index with
             | some av => [BalOp.adj av.1 (-av.2)]
             | none => []) ++ refDebitOps s.outputs rest from rfl, hav]
      rfl
    | some r =>
      rw [ih]
      have hav : lookupAV s.outputs j.txId j.index = some (r.address, r.value) := by
        rw [← hstab j.txId j.index]
        unfold lookupAV
        rw [hl]
        rfl
      show Ledger.mk s.blocks s.transactions
          (markAll (markSpent s.outputs j.txId j.index) rest)
          ((s.inputs ++ [⟨txId, j.txId, j.index⟩]) ++ inRows txId rest)
          (runOps (debitBalance s.balances r.address r.value)
            (refDebitOps (markSpent s.outputs j.txId j.index) rest)) = _
      rw [List.append_assoc,
        refDebitOps_congr rest _ _ (fun i _ => hstab i.txId i.index),
        debitBalance_eq_credit_neg]
      show _ = Ledger.mk s.blocks s.transactions (markAll s.outputs (j :: rest))
          (s.inputs ++ inRows txId (j :: rest))
          (runOps s.balances (refDebitOps s.outputs (j :: rest)))
      rw [show refDebitOps s.outputs (j :: rest)
          = (match lookupAV s.outputs j.txId j.index with
             | some av => [BalOp.adj av.1 (-av.2)]
             | none => []) ++ refDebitOps s.outputs rest from rfl, hav]
      rfl

theorem any_fst_false {β : Type} (l : List (String × β)) (x : String) :
    (l.any (fun p => p.1 == x)) = false ↔ x ∉ l.map Prod.fst := by
  rw [← Bool.not_eq_true, List.any_eq_true]
  constructor
  · intro h hmem
    rcases List.mem_map.mp hmem with ⟨p, hp, hpx⟩
    exact h ⟨p, hp, by simp [hpx]⟩
  · rintro h ⟨p, hp, hpx⟩
    exact h (List.mem_map.mpr ⟨p, hp, by simpa using hpx⟩)

theorem lookupOutput_mem (rows : List OutputRow) (k : String) (i : Nat) (r : OutputRow)
    (h : lookupOutput rows k i = some r) :
    r ∈ rows ∧ r.tx_id = k ∧ r.output_index = i := by
  refine ⟨List.mem_of_find?_eq_some h, ?_, ?_⟩
  · have := List.find?_some h
    simp only [Bool.and_eq_true, beq_iff_eq] at this
    exact this.1
  · have := List.find?_some h
    simp only [Bool.and_eq_true, beq_iff_eq] at this
    exact this.2

theorem mem_outRows (txId : String) (outs : List TxOutput) (i : Nat) (r : OutputRow)
    (h : r ∈ outRows txId i outs) :
    r.tx_id = txId ∧ r.spent = false ∧ ∃ o ∈ outs, r.address = o.address ∧ r.value = o.value := by
  induction outs generalizing i with
  | nil => cases h
  | cons o rest ih =>
    rcases List.mem_cons.mp h with heq | hmem
    · subst heq
      exact ⟨rfl, rfl, o, List.mem_cons_self _ _, rfl, rfl⟩
    · rcases ih (i + 1) hmem with ⟨h1, h2, o2, ho2, h3⟩
      exact ⟨h1, h2, o2, List.mem_cons_of_mem _ ho2, h3⟩

theorem mem_newRows (ts : List Transaction) (r : OutputRow) (h : r ∈ newRows ts) :
    ∃ t ∈ ts, r ∈ outRows t.id 0 t.outputs := by
  induction ts with
  | nil => cases h
  | cons t rest ih =>
    rcases List.mem_append.mp h with hm | hm
    · exact ⟨t, List.mem_cons_self _ _, hm⟩
    · rcases ih hm with ⟨t2, ht2, hr2⟩
      exact ⟨t2, List.mem_cons_of_mem _ ht2, hr2⟩

theorem mem_markAll_fields (refs : List TxInput) (rows : List OutputRow) (r : OutputRow)
    (h : r ∈ markAll rows refs) :
    ∃ r0 ∈ rows, r.tx_id = r0.tx_id ∧ r.output_index = r0.output_index ∧
      r.address = r0.address ∧ r.value = r0.value := by
  rw [markAll_eq_map] at h
  rcases List.mem_map.mp h with ⟨r0, hr0, heq⟩
  refine ⟨r0, hr0, ?_⟩
  by_cases hm : matchesAny refs r0 = true
  · rw [if_pos hm] at heq
    subst heq
    exact ⟨rfl, rfl, rfl, rfl⟩
  · rw [if_neg hm] at heq
    subst heq
    exact ⟨rfl, rfl, rfl, rfl⟩

theorem lookupOutput_ne_none_iff (rows : List OutputRow) (k : String) (i : Nat) :
    lookupOutput rows k i ≠ none ↔ lookupAV rows k i ≠ none := by
  unfold lookupAV
  cases lookupOutput rows k i <;> simp

theorem markAll_refs_append (rows : List OutputRow) (l1 l2 : List TxInput) :
    markAll rows (l1 ++ l2) = markAll (markAll rows l1) l2 :=
  List.foldl_append _ _ _ _

theorem applyTx_spec (bid : String) (s : Ledger) (tx : Transaction)
    (hfresh : tx.id ∉ s.transactions.map Prod.fst) :
    applyTx bid s tx = .ok ⟨s.blocks, s.transactions ++ [(tx.id, bid)],
      markAll (s.outputs ++ outRows tx.id 0 tx.outputs) tx.inputs,
      s.inputs ++ inRows tx.id tx.inputs,
      runOps s.balances
        (upsOps tx.outputs ++ refDebitOps (s.outputs ++ outRows tx.id 0 tx.outputs) tx.inputs)⟩ := by
  unfold applyTx
  rw [if_neg (by rw [(any_fst_false s.transactions tx.id).mpr hfresh]; simp)]
  rw [applyOutputs_spec, applyInputs_spec, runOps_append]

theorem applyTxs_spec (ts : List Transaction) (bid : String) (s : Ledger)
    (hfresh : ∀ t ∈ ts, t.id ∉ s.transactions.map Prod.fst)
    (hnd : (ts.map Transaction.id).Nodup)
    (hfound : ∀ t ∈ ts, ∀ i ∈ t.inputs, lookupOutput s.outputs i.txId i.index ≠ none)
    (hW4 : ∀ r ∈ s.outputs, r.tx_id ∈ s.transactions.map Prod.fst) :
    applyTxs bid s ts = .ok ⟨s.blocks, s.transactions ++ txRows bid ts,
      markAll (s.outputs ++ newRows ts) (allRefs ts),
      s.inputs ++ allInRows ts,
      runOps s.balances (blockOps s.outputs ts)⟩ := by
  induction ts generalizing s with
  | nil =>
    show Except.ok s = _
    cases s
    simp [txRows, newRows, allRefs, allInRows, blockOps, markAll, runOps_nil]
  | cons t ts' ih =>
    have ht_mem : t ∈ t :: ts' := List.mem_cons_self _ _
    have hfr : t.id ∉ s.transactions.map Prod.fst := hfresh t ht_mem
    have hfoundT : ∀ i ∈ t.inputs, ∃ r, lookupOutput s.outputs i.txId i.index = some r := by
      intro i hi
      cases hvv : lookupOutput s.outputs i.txId i.index with
      | none => exact absurd hvv (hfound t ht_mem i hi)
      | some r => exact ⟨r, rfl⟩
    have hdeb : refDebitOps (s.outputs ++ outRows t.id 0 t.outputs) t.inputs
        = refDebitOps s.outputs t.inputs := by
      apply refDebitOps_congr
      intro i hi
      rcases hfoundT i hi with ⟨r, hr⟩
      exact lookupAV_append_left _ _ _ _ r hr
    have hAVstab : ∀ (i : TxInput), (∃ r, lookupOutput s.outputs i.txId i.index = some r) →
        lookupAV (markAll (s.outputs ++ outRows t.id 0 t.outputs) t.inputs) i.txId i.index
          = lookupAV s.outputs i.txId i.index := by
      rintro i ⟨r, hr⟩
      rw [lookupAV_markAll, lookupAV_append_left _ _ _ _ r hr]
    rw [applyTxs, applyTx_spec bid s t hfr]
    show applyTxs bid
        ⟨s.blocks, s.transactions ++ [(t.id, bid)],
         markAll (s.outputs ++ outRows t.id 0 t.outputs) t.inputs,
         s.inputs ++ inRows t.id t.inputs,
         runOps s.balances
           (upsOps t.outputs ++ refDebitOps (s.outputs ++ outRows t.id 0 t.outputs) t.inputs)⟩ ts'
      = _
    have hndc : t.id ∉ ts'.map Transaction.id ∧ (ts'.map Transaction.id).Nodup := by
      have : (t.id :: ts'.map Transaction.id).Nodup := by simpa using hnd
      exact ⟨(List.nodup_cons.mp this).1, (List.nodup_cons.mp this).2⟩
    have hfresh' : ∀ t2 ∈ ts',
        t2.id ∉ (s.transactions ++ [(t.id, bid)]).map Prod.fst := by
      intro t2 ht2
      rw [List.map_append, List.mem_append]
      rintro (h | h)
      · exact hfresh t2 (List.mem_cons_of_mem _ ht2) h
      · simp only [List.map_cons, List.map_nil, List.mem_singleton] at h
        exact hndc.1 (h ▸ List.mem_map.mpr ⟨t2, ht2, rfl⟩)
    have hfound' : ∀ t2 ∈ ts', ∀ i ∈ t2.inputs,
        lookupOutput (markAll (s.outputs ++ outRows t.id 0 t.outputs) t.inputs)
          i.txId i.index ≠ none := by
      intro t2 ht2 i hi
      have hex : ∃ r, lookupOutput s.outputs i.txId i.index = some r := by
        cases hvv : lookupOutput s.outputs i.txId i.index with
        | none => exact absurd hvv (hfound t2 (List.mem_cons_of_mem _ ht2) i hi)
        | some r => exact ⟨r, rfl⟩
      rcases hex with ⟨r, hr⟩
      rw [lookupOutput_ne_none_iff, hAVstab i ⟨r, hr⟩]
      unfold lookupAV
      rw [hr]
      simp
    have hW4' : ∀ r ∈ markAll (s.outputs ++ outRows t.id 0 t.outputs) t.inputs,
        r.tx_id ∈ (s.transactions ++ [(t.id, bid)]).map Prod.fst := by
      intro r hrm
      rcases mem_markAll_fields _ _ _ hrm with ⟨r0, hr0, htid, _⟩
      rw [List.map_append, List.mem_append, htid]
      rcases List.mem_append.mp hr0 with h | h
      · exact Or.inl (hW4 r0 h)
      · rcases mem_outRows _ _ _ _ h with ⟨h1, _⟩
        simp [h1]
    rw [ih _ hfresh' hndc.2 hfound' hW4']
    have hnomatch : ∀ j ∈ t.inputs, ∀ r ∈ newRows ts',
        ¬(r.tx_id = j.txId ∧ r.output_index = j.index) := by
      rintro j hj r hrmem ⟨hrt, _⟩
      rcases hfoundT j hj with ⟨r0, hr0⟩
      have hr0f := lookupOutput_mem _ _ _ _ hr0
      have hjin : j.txId ∈ s.transactions.map Prod.fst := hr0f.2.1 ▸ hW4 r0 hr0f.1
      rcases mem_newRows ts' r hrmem with ⟨t2, ht2, hrout⟩
      have ht2id : r.tx_id = t2.id := (mem_outRows _ _ _ _ hrout).1
      exact hfresh t2 (List.mem_cons_of_mem _ ht2) (by rw [← ht2id, hrt]; exact hjin)
    have hops : blockOps (markAll (s.outputs ++ outRows t.id 0 t.outputs) t.inputs) ts'
        = blockOps s.outputs ts' := by
      apply blockOps_congr
      intro t2 ht2 i hi
      have hex : ∃ r, lookupOutput s.outputs i.txId i.index = some r := by
        cases hvv : lookupOutput s.outputs i.txId i.index with
        | none => exact absurd hvv (hfound t2 (List.mem_cons_of_mem _ ht2) i hi)
        | some r => exact ⟨r, rfl⟩
      exact hAVstab i hex
    congr 1
    have houts : markAll (markAll (s.outputs ++ outRows t.id 0 t.outputs) t.inputs
          ++ newRows ts') (allRefs ts')
        = markAll (s.outputs ++ newRows (t :: ts')) (allRefs (t :: ts')) := by
      rw [← markAll_append t.inputs (s.outputs ++ outRows t.id 0 t.outputs) (newRows ts')
        (fun j hj r hr => hnomatch j hj r hr)]
      show _ = markAll (s.outputs ++ (outRows t.id 0 t.outputs ++ newRows ts'))
          (t.inputs ++ allRefs ts')
      rw [markAll_refs_append, ← List.append_assoc]
    have hbal : runOps (runOps s.balances
          (upsOps t.outputs ++ refDebitOps (s.outputs ++ outRows t.id 0 t.outputs) t.inputs))
          (blockOps (markAll (s.outputs ++ outRows t.id 0 t.outputs) t.inputs) ts')
        = runOps s.balances (blockOps s.outputs (t :: ts')) := by
      rw [hops, hdeb, ← runOps_append]
      show _ = runOps s.balances
        (upsOps t.outputs ++ refDebitOps s.outputs t.inputs ++ blockOps s.outputs ts')
      rw [List.append_assoc]
    rw [houts, hbal]
    show Ledger.mk s.blocks ((s.transactions ++ [(t.id, bid)]) ++ txRows bid ts')
        (markAll (s.outputs ++ newRows (t :: ts')) (allRefs (t :: ts')))
        ((s.inputs ++ inRows t.id t.inputs) ++ allInRows ts')
        (runOps s.balances (blockOps s.outputs (t :: ts'))) = _
    rw [List.append_assoc, List.append_assoc]
    rfl

theorem applyTxs_ok_facts (ts : List Transaction) (bid : String) (s s' : Ledger)
    (hok : applyTxs bid s ts = .ok s') :
    (∀ t ∈ ts, t.id ∉ s.transactions.map Prod.fst) ∧ (ts.map Transaction.id).Nodup := by
  induction ts generalizing s with
  | nil => exact ⟨fun t ht => absurd ht (List.not_mem_nil t), List.nodup_nil⟩
  | cons t ts' ih =>
    revert hok
    rw [applyTxs]
    by_cases hdup : (s.transactions.any fun p => p.1 == t.id) = true
    · unfold applyTx
      rw [if_pos hdup]
      intro hok
      simp at hok
    · have hfr : t.id ∉ s.transactions.map Prod.fst :=
        (any_fst_false _ _).mp (Bool.eq_false_iff.mpr hdup)
      rw [applyTx_spec bid s t hfr]
      intro hok
      have hok' : applyTxs bid
          ⟨s.blocks, s.transactions ++ [(t.id, bid)],
           markAll (s.outputs ++ outRows t.id 0 t.outputs) t.inputs,
           s.inputs ++ inRows t.id t.inputs,
           runOps s.balances (upsOps t.outputs
             ++ refDebitOps (s.outputs ++ outRows t.id 0 t.outputs) t.inputs)⟩ ts'
          = .ok s' := hok
      have hfacts := ih _ hok'
      refine ⟨?_, ?_⟩
      · intro t2 ht2
        rcases List.mem_cons.mp ht2 with he | hm
        · subst he
          exact hfr
        · intro hmem
          exact (hfacts.1 t2 hm) (by
            rw [List.map_append]
            exact List.mem_append_left _ hmem)
      · rw [List.map_cons, List.nodup_cons]
        refine ⟨?_, hfacts.2⟩
        intro htid
        rcases List.mem_map.mp htid with ⟨t2, ht2, hid⟩
        apply hfacts.1 t2 ht2
        rw [List.map_append]
        apply List.mem_append_right
        simp [hid]

theorem applyBlock_build (s : Ledger) (b : Block)
    (hb : (s.blocks.any fun p => p.1 == b.id || p.2 == b.height) = false)
    (hfresh : ∀ t ∈ b.transactions, t.id ∉ s.transactions.map Prod.fst)
    (hnd : (b.transactions.map Transaction.id).Nodup)
    (hfound : ∀ t ∈ b.transactions, ∀ i ∈ t.inputs,
      lookupOutput s.outputs i.txId i.index ≠ none)
    (hW4 : ∀ r ∈ s.outputs, r.tx_id ∈ s.transactions.map Prod.fst) :
    applyBlock s b = .ok ⟨s.blocks ++ [(b.id, b.height)],
      s.transactions ++ txRows b.id b.transactions,
      markAll (s.outputs ++ newRows b.transactions) (allRefs b.transactions),
      s.inputs ++ allInRows b.transactions,
      runOps s.balances (blockOps s.outputs b.transactions)⟩ := by
  unfold applyBlock
  rw [if_neg (by simp [hb])]
  rw [applyTxs_spec b.transactions b.id
    { s with blocks := s.blocks ++ [(b.id, b.height)] } hfresh hnd hfound hW4]

theorem applyBlock_ok_spec (s : Ledger) (b : Block) (s' : Ledger)
    (hok : applyBlock s b = .ok s')
    (hfound : ∀ t ∈ b.transactions, ∀ i ∈ t.inputs,
      lookupOutput s.outputs i.txId i.index ≠ none)
    (hW4 : ∀ r ∈ s.outputs, r.tx_id ∈ s.transactions.map Prod.fst) :
    (s.blocks.any fun p => p.1 == b.id || p.2 == b.height) = false ∧
    (∀ t ∈ b.transactions, t.id ∉ s.transactions.map Prod.fst) ∧
    (b.transactions.map Transaction.id).Nodup ∧
    s' = ⟨s.blocks ++ [(b.id, b.height)],
      s.transactions ++ txRows b.id b.transactions,
      markAll (s.outputs ++ newRows b.transactions) (allRefs b.transactions),
      s.inputs ++ allInRows b.transactions,
      runOps s.balances (blockOps s.outputs b.transactions)⟩ := by
  unfold applyBlock at hok
  by_cases hb : (s.blocks.any fun p => p.1 == b.id || p.2 == b.height) = true
  · rw [if_pos hb] at hok
    cases hok
  · have hb' : (s.blocks.any fun p => p.1 == b.id || p.2 == b.height) = false := by
      simpa using hb
    rw [if_neg hb] at hok
    have hok2 : applyTxs b.id
        { s with blocks := s.blocks ++ [(b.id, b.height)] } b.transactions = .ok s' := hok
    have hfacts := applyTxs_ok_facts b.transactions b.id
      { s with blocks := s.blocks ++ [(b.id, b.height)] } s' hok2
    rw [applyTxs_spec b.transactions b.id
      { s with blocks := s.blocks ++ [(b.id, b.height)] }
      hfacts.1 hfacts.2 hfound hW4] at hok2
    refine ⟨hb', hfacts.1, hfacts.2, ((Except.ok.injEq _ _).mp hok2).symm⟩

theorem validate_found (s : Ledger) (b : Block) (h : validate s b = none) :
    ∀ t ∈ b.transactions, ∀ i ∈ t.inputs,
      ∃ r, lookupOutput s.outputs i.txId i.index = some r ∧ r.spent = false := by
  intro t ht i hi
  have h3 := (validate_none_parts s b h).2.2
  have h4 := validateTxs_none_mem _ _ _ h3 t ht
  by_cases hc : b.height = 1 ∧ t.inputs = []
  · rw [hc.2] at hi
    cases hi
  · exact inputSum_ok_mem _ _ _ ((validateTx_none_iff _ _ _ hc).mp h4) i hi

/-! ## Closed forms of the rollback phase -/

theorem filter_all_true {α : Type} (l : List α) (p : α → Bool)
    (h : ∀ a ∈ l, p a = true) : l.filter p = l := by
  induction l with
  | nil => rfl
  | cons x rest ih =>
    rw [List.filter_cons, if_pos (h x (List.mem_cons_self _ _))]
    rw [ih (fun a ha => h a (List.mem_cons_of_mem _ ha))]

theorem filter_all_false {α : Type} (l : List α) (p : α → Bool)
    (h : ∀ a ∈ l, p a = false) : l.filter p = [] := by
  induction l with
  | nil => rfl
  | cons x rest ih =>
    rw [List.filter_cons, if_neg (by simp [h x (List.mem_cons_self _ _)])]
    exact ih (fun a ha => h a (List.mem_cons_of_mem _ ha))

theorem mem_unmarkAll_fields (refs : List TxInput) (rows : List OutputRow) (r : OutputRow)
    (h : r ∈ unmarkAll rows refs) :
    ∃ r0 ∈ rows, r.tx_id = r0.tx_id ∧ r.output_index = r0.output_index ∧
      r.address = r0.address ∧ r.value = r0.value := by
  rw [unmarkAll_eq_map] at h
  rcases List.mem_map.mp h with ⟨r0, hr0, heq⟩
  refine ⟨r0, hr0, ?_⟩
  by_cases hm : matchesAny refs r0 = true
  · rw [if_pos hm] at heq
    subst heq
    exact ⟨rfl, rfl, rfl, rfl⟩
  · rw [if_neg hm] at heq
    subst heq
    exact ⟨rfl, rfl, rfl, rfl⟩

theorem undoOutputs_fold (rows : List OutputRow) (X : Ledger) :
    rows.foldl undoOutput X
      = { X with balances := runOps X.balances (outDebitOps rows) } := by
  induction rows generalizing X with
  | nil =>
    cases X
    simp [outDebitOps, runOps_nil]
  | cons r rest ih =>
    show rest.foldl undoOutput (undoOutput X r) = _
    rw [ih]
    show Ledger.mk X.blocks X.transactions X.outputs X.inputs
        (runOps (debitBalance X.balances r.address r.value) (outDebitOps rest)) = _
    rw [debitBalance_eq_credit_neg]
    rfl

theorem undoInputs_fold (l : List TxInput) (txid : String) (Opart NRall : List OutputRow)
    (X : Ledger)
    (hX : X.outputs = Opart ++ NRall)
    (hfound : ∀ i ∈ l, ∃ r, lookupOutput Opart i.txId i.index = some r)
    (hnomatch : ∀ i ∈ l, ∀ r ∈ NRall, ¬(r.tx_id = i.txId ∧ r.output_index = i.index)) :
    (inRows txid l).foldl undoInput X
      = { X with outputs := unmarkAll Opart l ++ NRall,
                 balances := runOps X.balances (refCreditOps Opart l) } := by
  induction l generalizing X Opart with
  | nil =>
    cases X
    simp only at hX
    subst hX
    simp [inRows, unmarkAll, refCreditOps, runOps_nil]
  | cons i rest ih =>
    rcases hfound i (List.mem_cons_self _ _) with ⟨r, hr⟩
    show (inRows txid rest).foldl undoInput (undoInput X ⟨txid, i.txId, i.index⟩) = _
    have hlook : lookupOutput X.outputs i.txId i.index = some r := by
      rw [hX]
      exact lookupOutput_append_left _ _ _ _ r hr
    have hundo : undoInput X ⟨txid, i.txId, i.index⟩
        = { X with outputs := markUnspent X.outputs i.txId i.index,
                   balances := creditBalance X.balances r.address r.value } := by
      unfold undoInput
      rw [show (⟨txid, i.txId, i.index⟩ : InputRow).referenced_tx_id = i.txId from rfl]
      rw [show (⟨txid, i.txId, i.index⟩ : InputRow).referenced_output_index = i.index from rfl]
      rw [hlook]
    rw [hundo]
    have hmu : markUnspent X.outputs i.txId i.index
        = markUnspent Opart i.txId i.index ++ NRall := by
      rw [hX]
      exact markUnspent_append Opart NRall i.txId i.index
        (fun r2 hr2 => hnomatch i (List.mem_cons_self _ _) r2 hr2)
    have hstab : ∀ (j : TxInput),
        lookupAV (markUnspent Opart i.txId i.index) j.txId j.index
          = lookupAV Opart j.txId j.index :=
      fun j => lookupAV_markUnspent Opart i.txId i.index j.txId j.index
    rw [ih (markUnspent Opart i.txId i.index) _ (by rw [hmu]) ?hf ?hn]
    case hf =>
      intro j hj
      rcases hfound j (List.mem_cons_of_mem _ hj) with ⟨r2, hr2⟩
      have : lookupAV (markUnspent Opart i.txId i.index) j.txId j.index
          = some (r2.address, r2.value) := by
        rw [hstab j]
        unfold lookupAV
        rw [hr2]
        rfl
      cases hl2 : lookupOutput (markUnspent Opart i.txId i.index) j.txId j.index with
      | none =>
        exfalso
        unfold lookupAV at this
        rw [hl2] at this
        cases this
      | some r3 => exact ⟨r3, rfl⟩
    case hn =>
      intro j hj r2 hr2
      exact hnomatch j (List.mem_cons_of_mem _ hj) r2 hr2
    have hcr : refCreditOps (markUnspent Opart i.txId i.index) rest
        = refCreditOps Opart rest :=
      refCreditOps_congr rest _ _ (fun j _ => hstab j)
    rw [hcr]
    show Ledger.mk X.blocks X.transactions
        (unmarkAll (markUnspent Opart i.txId i.index) rest ++ NRall) X.inputs
        (runOps (creditBalance X.balances r.address r.value) (refCreditOps Opart rest)) = _
    have hops : refCreditOps Opart (i :: rest)
        = BalOp.adj r.address r.value :: refCreditOps Opart rest := by
      show (match lookupAV Opart i.txId i.index with
            | some av => [BalOp.adj av.1 av.2]
            | none => []) ++ refCreditOps Opart rest = _
      rw [show lookupAV Opart i.txId i.index = some (r.address, r.value) by
        unfold lookupAV
        rw [hr]
        rfl]
      rfl
    rw [hops]
    rfl

theorem mem_inRows (txid : String) (l : List TxInput) (ir : InputRow)
    (h : ir ∈ inRows txid l) : ir.tx_id = txid := by
  rcases List.mem_map.mp h with ⟨i, _, heq⟩
  rw [← heq]

theorem rollbackTx_spec (t : Transaction) (X : Ledger)
    (O NR : List OutputRow) (I NI : List InputRow)
    (hO : X.outputs = O ++ outRows t.id 0 t.outputs ++ NR)
    (hOold : ∀ r ∈ O, r.tx_id ≠ t.id)
    (hNR : ∀ r ∈ NR, r.tx_id ≠ t.id)
    (hI : X.inputs = I ++ inRows t.id t.inputs ++ NI)
    (hIold : ∀ ir ∈ I, ir.tx_id ≠ t.id)
    (hNI : ∀ ir ∈ NI, ir.tx_id ≠ t.id)
    (href : ∀ i ∈ t.inputs, ∃ r, lookupOutput O i.txId i.index = some r)
    (hnomatch : ∀ i ∈ t.inputs, ∀ r ∈ outRows t.id 0 t.outputs ++ NR,
      ¬(r.tx_id = i.txId ∧ r.output_index = i.index)) :
    rollbackTx X t.id = ⟨X.blocks, X.transactions.filter (fun p => !(p.1 == t.id)),
      unmarkAll O t.inputs ++ NR, I ++ NI,
      runOps X.balances
        (refCreditOps O t.inputs ++ outDebitOps (outRows t.id 0 t.outputs))⟩ := by
  have hfilterI : X.inputs.filter (fun ir => ir.tx_id == t.id) = inRows t.id t.inputs := by
    rw [hI, List.filter_append, List.filter_append,
      filter_all_false I _ (fun ir hir => beq_eq_false_iff_ne.mpr (hIold ir hir)),
      filter_all_true (inRows t.id t.inputs) _
        (fun ir hir => beq_iff_eq.mpr (mem_inRows t.id t.inputs ir hir)),
      filter_all_false NI _ (fun ir hir => beq_eq_false_iff_ne.mpr (hNI ir hir))]
    simp
  have hs1 : (X.inputs.filter (fun ir => ir.tx_id == t.id)).foldl undoInput X
      = { X with outputs := unmarkAll O t.inputs ++ (outRows t.id 0 t.outputs ++ NR),
                 balances := runOps X.balances (refCreditOps O t.inputs) } := by
    rw [hfilterI]
    exact undoInputs_fold t.inputs t.id O (outRows t.id 0 t.outputs ++ NR) X
      (by rw [hO, List.append_assoc]) href hnomatch
  have hfo : (unmarkAll O t.inputs ++ (outRows t.id 0 t.outputs ++ NR)).filter
      (fun r => r.tx_id == t.id) = outRows t.id 0 t.outputs := by
    rw [List.filter_append, List.filter_append,
      filter_all_false (unmarkAll O t.inputs) _ (fun r hr => by
        rcases mem_unmarkAll_fields t.inputs O r hr with ⟨r0, hr0, htid, _⟩
        exact beq_eq_false_iff_ne.mpr (htid ▸ hOold r0 hr0)),
      filter_all_true (outRows t.id 0 t.outputs) _
        (fun r hr => beq_iff_eq.mpr (mem_outRows t.id t.outputs 0 r hr).1),
      filter_all_false NR _ (fun r hr => beq_eq_false_iff_ne.mpr (hNR r hr))]
    simp
  have hfo2 : (unmarkAll O t.inputs ++ (outRows t.id 0 t.outputs ++ NR)).filter
      (fun r => !(r.tx_id == t.id)) = unmarkAll O t.inputs ++ NR := by
    rw [List.filter_append, List.filter_append,
      filter_all_true (unmarkAll O t.inputs) _ (fun r hr => by
        rcases mem_unmarkAll_fields t.inputs O r hr with ⟨r0, hr0, htid, _⟩
        simp [beq_eq_false_iff_ne.mpr (htid ▸ hOold r0 hr0)]),
      filter_all_false (outRows t.id 0 t.outputs) _ (fun r hr => by
        simp [beq_iff_eq.mpr (mem_outRows t.id t.outputs 0 r hr).1]),
      filter_all_true NR _ (fun r hr => by
        simp [beq_eq_false_iff_ne.mpr (hNR r hr)])]
    simp
  have hfi2 : X.inputs.filter (fun ir => !(ir.tx_id == t.id)) = I ++ NI := by
    rw [hI, List.filter_append, List.filter_append,
      filter_all_true I _ (fun ir hir => by
        simp [beq_eq_false_iff_ne.mpr (hIold ir hir)]),
      filter_all_false (inRows t.id t.inputs) _ (fun ir hir => by
        simp [beq_iff_eq.mpr (mem_inRows t.id t.inputs ir hir)]),
      filter_all_true NI _ (fun ir hir => by
        simp [beq_eq_false_iff_ne.mpr (hNI ir hir)])]
    simp
  unfold rollbackTx
  simp only []
  rw [hs1]
  simp only []
  rw [hfo, undoOutputs_fold]
  simp only []
  rw [hfo2, hfi2, ← runOps_append]

theorem unmarkAll_refs_append (rows : List OutputRow) (l1 l2 : List TxInput) :
    unmarkAll rows (l1 ++ l2) = unmarkAll (unmarkAll rows l1) l2 :=
  List.foldl_append _ _ _ _

theorem mem_txRows (bid : String) (ts : List Transaction) (p : String × String)
    (h : p ∈ txRows bid ts) : p.2 = bid ∧ p.1 ∈ ts.map Transaction.id := by
  rcases List.mem_map.mp h with ⟨t, ht, heq⟩
  subst heq
  exact ⟨rfl, List.mem_map.mpr ⟨t, ht, rfl⟩⟩

theorem txRows_map_fst (bid : String) (ts : List Transaction) :
    (txRows bid ts).map Prod.fst = ts.map Transaction.id := by
  unfold txRows
  rw [List.map_map]
  rfl

theorem mem_allInRows (ts : List Transaction) (ir : InputRow) (h : ir ∈ allInRows ts) :
    ir.tx_id ∈ ts.map Transaction.id := by
  induction ts with
  | nil => cases h
  | cons t rest ih =>
    rcases List.mem_append.mp h with hm | hm
    · rw [List.map_cons]
      exact List.mem_cons.mpr (Or.inl (mem_inRows t.id t.inputs ir hm))
    · rw [List.map_cons]
      exact List.mem_cons.mpr (Or.inr (ih hm))

theorem rollbackTxs_fold (ts : List Transaction) (bid : String) (X : Ledger)
    (T : List (String × String)) (O : List OutputRow) (I : List InputRow)
    (hT : X.transactions = T ++ txRows bid ts)
    (hTids : ∀ p ∈ T, p.1 ∉ ts.map Transaction.id)
    (hO : X.outputs = O ++ newRows ts)
    (hOold : ∀ r ∈ O, r.tx_id ∉ ts.map Transaction.id)
    (hI : X.inputs = I ++ allInRows ts)
    (hIold : ∀ ir ∈ I, ir.tx_id ∉ ts.map Transaction.id)
    (hnd : (ts.map Transaction.id).Nodup)
    (href : ∀ t ∈ ts, ∀ i ∈ t.inputs, ∃ r, lookupOutput O i.txId i.index = some r) :
    (ts.map Transaction.id).foldl rollbackTx X
      = ⟨X.blocks, T, unmarkAll O (allRefs ts), I,
         runOps X.balances (rbOps O ts)⟩ := by
  induction ts generalizing X T O I with
  | nil =>
    show X = _
    simp only [newRows, List.append_nil] at hO
    simp only [allInRows, List.append_nil] at hI
    simp only [txRows, List.map_nil, List.append_nil] at hT
    cases X
    simp only at hT hO hI
    subst hT
    subst hO
    subst hI
    simp [allRefs, unmarkAll, rbOps, runOps_nil]
  | cons t ts' ih =>
    have hmemids : t.id ∈ (t :: ts').map Transaction.id := by
      rw [List.map_cons]
      exact List.mem_cons_self _ _
    have hnd' : (ts'.map Transaction.id).Nodup ∧ t.id ∉ ts'.map Transaction.id := by
      rw [List.map_cons] at hnd
      exact ⟨(List.nodup_cons.mp hnd).2, (List.nodup_cons.mp hnd).1⟩
    have hOdec : X.outputs = O ++ outRows t.id 0 t.outputs ++ newRows ts' := by
      rw [hO]
      show _ = O ++ outRows t.id 0 t.outputs ++ newRows ts'
      rw [List.append_assoc]
      rfl
    have hIdec : X.inputs = I ++ inRows t.id t.inputs ++ allInRows ts' := by
      rw [hI]
      show _ = I ++ inRows t.id t.inputs ++ allInRows ts'
      rw [List.append_assoc]
      rfl
    have hspec := rollbackTx_spec t X O (newRows ts') I (allInRows ts')
      hOdec
      (fun r hr => fun he => hOold r hr (he ▸ hmemids))
      (fun r hr => by
        rcases mem_newRows ts' r hr with ⟨t2, ht2, hro⟩
        have : r.tx_id = t2.id := (mem_outRows _ _ _ _ hro).1
        rw [this]
        intro he
        exact hnd'.2 (he ▸ List.mem_map.mpr ⟨t2, ht2, rfl⟩))
      hIdec
      (fun ir hir => fun he => hIold ir hir (he ▸ hmemids))
      (fun ir hir => by
        have := mem_allInRows ts' ir hir
        intro he
        exact hnd'.2 (he ▸ this))
      (href t (List.mem_cons_self _ _))
      (fun i hi r hr => by
        rintro ⟨hrt, _⟩
        rcases href t (List.mem_cons_self _ _) i hi with ⟨r0, hr0⟩
        have hr0m := lookupOutput_mem _ _ _ _ hr0
        have : i.txId ∉ (t :: ts').map Transaction.id := hr0m.2.1 ▸ hOold r0 hr0m.1
        apply this
        rcases List.mem_append.mp hr with hout | hnew
        · rw [← hrt, (mem_outRows _ _ _ _ hout).1, List.map_cons]
          exact List.mem_cons_self _ _
        · rcases mem_newRows ts' r hnew with ⟨t2, ht2, hro⟩
          rw [← hrt, (mem_outRows _ _ _ _ hro).1, List.map_cons]
          exact List.mem_cons.mpr (Or.inr (List.mem_map.mpr ⟨t2, ht2, rfl⟩)))
    show (ts'.map Transaction.id).foldl rollbackTx (rollbackTx X t.id) = _
    rw [hspec]
    have hTfilter : X.transactions.filter (fun p => !(p.1 == t.id))
        = T ++ txRows bid ts' := by
      rw [hT]
      show (T ++ ((t.id, bid) :: txRows bid ts')).filter (fun p => !(p.1 == t.id)) = _
      rw [List.filter_append, List.filter_cons,
        filter_all_true T _ (fun p hp => by
          have hne : p.1 ≠ t.id := fun he => hTids p hp (by rw [he]; exact hmemids)
          simp [beq_eq_false_iff_ne.mpr hne]),
        filter_all_true (txRows bid ts') _ (fun p hp => by
          have := (mem_txRows bid ts' p hp).2
          simp only [Bool.not_eq_true']
          apply beq_eq_false_iff_ne.mpr
          intro he
          exact hnd'.2 (he ▸ this))]
      simp
    rw [ih _ T (unmarkAll O t.inputs) I
      (by show _ = T ++ txRows bid ts'; exact hTfilter)
      (fun p hp he => hTids p hp (List.mem_cons.mpr (Or.inr he)))
      rfl
      (fun r hr => by
        rcases mem_unmarkAll_fields t.inputs O r hr with ⟨r0, hr0, htid, _⟩
        intro he
        exact hOold r0 hr0 (List.mem_cons.mpr (Or.inr (htid ▸ he))))
      rfl
      (fun ir hir he => hIold ir hir (List.mem_cons.mpr (Or.inr he)))
      hnd'.1
      (fun t2 ht2 i hi => by
        rcases href t2 (List.mem_cons_of_mem _ ht2) i hi with ⟨r0, hr0⟩
        have hne : lookupOutput (unmarkAll O t.inputs) i.txId i.index ≠ none := by
          rw [lookupOutput_ne_none_iff, lookupAV_unmarkAll]
          unfold lookupAV
          rw [hr0]
          simp
        cases hl2 : lookupOutput (unmarkAll O t.inputs) i.txId i.index with
        | none => exact absurd hl2 hne
        | some r2 => exact ⟨r2, rfl⟩)]
    have hcr : rbOps (unmarkAll O t.inputs) ts' = rbOps O ts' :=
      rbOps_congr ts' _ _ (fun t2 _ i _ => lookupAV_unmarkAll t.inputs O i.txId i.index)
    rw [hcr, ← unmarkAll_refs_append, ← runOps_append]
    rfl

theorem rollbackBlock_spec (ts : List Transaction) (bid : String) (X : Ledger)
    (T : List (String × String)) (O : List OutputRow) (I : List InputRow)
    (hT : X.transactions = T ++ txRows bid ts)
    (hTold : ∀ p ∈ T, p.2 ≠ bid)
    (hTids : ∀ p ∈ T, p.1 ∉ ts.map Transaction.id)
    (hO : X.outputs = O ++ newRows ts)
    (hOold : ∀ r ∈ O, r.tx_id ∉ ts.map Transaction.id)
    (hI : X.inputs = I ++ allInRows ts)
    (hIold : ∀ ir ∈ I, ir.tx_id ∉ ts.map Transaction.id)
    (hnd : (ts.map Transaction.id).Nodup)
    (href : ∀ t ∈ ts, ∀ i ∈ t.inputs, ∃ r, lookupOutput O i.txId i.index = some r) :
    rollbackBlock X bid
      = ⟨X.blocks.filter (fun p => !(p.1 == bid)), T, unmarkAll O (allRefs ts), I,
         runOps X.balances (rbOps O ts)⟩ := by
  have hids : ((X.transactions.filter (fun p => p.2 == bid)).map (fun p => p.1))
      = ts.map Transaction.id := by
    rw [hT, List.filter_append,
      filter_all_false T _ (fun p hp => beq_eq_false_iff_ne.mpr (hTold p hp)),
      filter_all_true (txRows bid ts) _
        (fun p hp => beq_iff_eq.mpr (mem_txRows bid ts p hp).1)]
    simp only [List.nil_append]
    exact txRows_map_fst bid ts
  unfold rollbackBlock
  simp only []
  rw [hids, rollbackTxs_fold ts bid X T O I hT hTids hO hOold hI hIold hnd href]

/-! ## Membership characterisations of the balance programs -/

theorem mem_allRefs (ts : List Transaction) (j : TxInput) (h : j ∈ allRefs ts) :
    ∃ t ∈ ts, j ∈ t.inputs := by
  induction ts with
  | nil => cases h
  | cons t rest ih =>
    rcases List.mem_append.mp h with hm | hm
    · exact ⟨t, List.mem_cons_self _ _, hm⟩
    · rcases ih hm with ⟨t2, ht2, hj⟩
      exact ⟨t2, List.mem_cons_of_mem _ ht2, hj⟩

theorem allRefs_mem (ts : List Transaction) (t : Transaction) (ht : t ∈ ts)
    (j : TxInput) (hj : j ∈ t.inputs) : j ∈ allRefs ts := by
  induction ts with
  | nil => cases ht
  | cons t2 rest ih =>
    rcases List.mem_cons.mp ht with he | hm
    · subst he
      exact List.mem_append_left _ hj
    · exact List.mem_append_right _ (ih hm)

theorem matchesAny_true_elim (refs : List TxInput) (r : OutputRow)
    (h : matchesAny refs r = true) :
    ∃ j ∈ refs, r.tx_id = j.txId ∧ r.output_index = j.index := by
  unfold matchesAny at h
  rcases List.any_eq_true.mp h with ⟨j, hj, hcond⟩
  simp only [Bool.and_eq_true, beq_iff_eq] at hcond
  exact ⟨j, hj, hcond.1, hcond.2⟩

theorem nodup_key_unique (rows : List OutputRow)
    (hnd : (rows.map (fun r => (r.tx_id, r.output_index))).Nodup)
    (r1 r2 : OutputRow) (h1 : r1 ∈ rows) (h2 : r2 ∈ rows)
    (hk : r1.tx_id = r2.tx_id ∧ r1.output_index = r2.output_index) : r1 = r2 := by
  induction rows with
  | nil => cases h1
  | cons r rest ih =>
    rw [List.map_cons, List.nodup_cons] at hnd
    rcases List.mem_cons.mp h1 with he1 | hm1 <;> rcases List.mem_cons.mp h2 with he2 | hm2
    · rw [he1, he2]
    · exfalso
      subst he1
      exact hnd.1 (List.mem_map.mpr ⟨r2, hm2, by rw [hk.1, hk.2]⟩)
    · exfalso
      subst he2
      exact hnd.1 (List.mem_map.mpr ⟨r1, hm1, by rw [← hk.1, ← hk.2]⟩)
    · exact ih hnd.2 hm1 hm2

theorem hasKey_runOps_of_ups (ops : List BalOp) (bal : List (String × Int))
    (a : String) (v : Int) (h : BalOp.ups a v ∈ ops) :
    hasKey (runOps bal ops) a = true := by
  induction ops generalizing bal with
  | nil => cases h
  | cons op rest ih =>
    rcases List.mem_cons.mp h with he | hm
    · subst he
      exact hasKey_runOps_mono rest _ a (hasKey_upsert_self bal a v)
    · exact ih (runOp bal op) hm

theorem mem_refDebitOps (rows : List OutputRow) (l : List TxInput) (op : BalOp)
    (h : op ∈ refDebitOps rows l) :
    ∃ i ∈ l, ∃ av, lookupAV rows i.txId i.index = some av ∧ op = .adj av.1 (-av.2) := by
  induction l with
  | nil => cases h
  | cons j rest ih =>
    rcases List.mem_append.mp h with hm | hm
    · cases hl : lookupAV rows j.txId j.index with
      | none =>
        rw [hl] at hm
        cases hm
      | some av =>
        rw [hl] at hm
        rcases List.mem_cons.mp hm with he | he
        · exact ⟨j, List.mem_cons_self _ _, av, hl, he⟩
        · cases he
    · rcases ih hm with ⟨i, hi, av, hav, hop⟩
      exact ⟨i, List.mem_cons_of_mem _ hi, av, hav, hop⟩

theorem mem_refCreditOps (rows : List OutputRow) (l : List TxInput) (op : BalOp)
    (h : op ∈ refCreditOps rows l) :
    ∃ i ∈ l, ∃ av, lookupAV rows i.txId i.index = some av ∧ op = .adj av.1 av.2 := by
  induction l with
  | nil => cases h
  | cons j rest ih =>
    rcases List.mem_append.mp h with hm | hm
    · cases hl : lookupAV rows j.txId j.index with
      | none =>
        rw [hl] at hm
        cases hm
      | some av =>
        rw [hl] at hm
        rcases List.mem_cons.mp hm with he | he
        · exact ⟨j, List.mem_cons_self _ _, av, hl, he⟩
        · cases he
    · rcases ih hm with ⟨i, hi, av, hav, hop⟩
      exact ⟨i, List.mem_cons_of_mem _ hi, av, hav, hop⟩

theorem mem_blockOps (rows : List OutputRow) (ts : List Transaction) (op : BalOp)
    (h : op ∈ blockOps rows ts) :
    (∃ t ∈ ts, ∃ o ∈ t.outputs, op = .ups o.address o.value) ∨
    (∃ i ∈ allRefs ts, ∃ av, lookupAV rows i.txId i.index = some av ∧ op = .adj av.1 (-av.2)) := by
  induction ts with
  | nil => cases h
  | cons t rest ih =>
    rcases List.mem_append.mp h with hm | hm
    · rcases List.mem_append.mp hm with hm2 | hm2
      · rcases List.mem_map.mp hm2 with ⟨o, ho, heq⟩
        exact Or.inl ⟨t, List.mem_cons_self _ _, o, ho, heq.symm⟩
      · rcases mem_refDebitOps rows t.inputs op hm2 with ⟨i, hi, av, hav, hop⟩
        exact Or.inr ⟨i, List.mem_append_left _ hi, av, hav, hop⟩
    · rcases ih hm with h2 | h2
      · rcases h2 with ⟨t2, ht2, o, ho, hop⟩
        exact Or.inl ⟨t2, List.mem_cons_of_mem _ ht2, o, ho, hop⟩
      · rcases h2 with ⟨i, hi, av, hav, hop⟩
        exact Or.inr ⟨i, List.mem_append_right _ hi, av, hav, hop⟩

theorem mem_rbOps (rows : List OutputRow) (ts : List Transaction) (op : BalOp)
    (h : op ∈ rbOps rows ts) :
    (∃ i ∈ allRefs ts, ∃ av, lookupAV rows i.txId i.index = some av ∧ op = .adj av.1 av.2) ∨
    (∃ t ∈ ts, ∃ r ∈ outRows t.id 0 t.outputs, op = .adj r.address (-r.value)) := by
  induction ts with
  | nil => cases h
  | cons t rest ih =>
    rcases List.mem_append.mp h with hm | hm
    · rcases List.mem_append.mp hm with hm2 | hm2
      · rcases mem_refCreditOps rows t.inputs op hm2 with ⟨i, hi, av, hav, hop⟩
        exact Or.inl ⟨i, List.mem_append_left _ hi, av, hav, hop⟩
      · rcases List.mem_map.mp hm2 with ⟨r, hr, heq⟩
        exact Or.inr ⟨t, List.mem_cons_self _ _, r, hr, heq.symm⟩
    · rcases ih hm with h2 | h2
      · rcases h2 with ⟨i, hi, av, hav, hop⟩
        exact Or.inl ⟨i, List.mem_append_right _ hi, av, hav, hop⟩
      · rcases h2 with ⟨t2, ht2, r, hr, hop⟩
        exact Or.inr ⟨t2, List.mem_cons_of_mem _ ht2, r, hr, hop⟩

theorem rbOps_no_ups (rows : List OutputRow) (ts : List Transaction)
    (a : String) (v : Int) (h : BalOp.ups a v ∈ rbOps rows ts) : False := by
  rcases mem_rbOps rows ts _ h with h2 | h2
  · rcases h2 with ⟨_, _, _, _, hop⟩
    cases hop
  · rcases h2 with ⟨_, _, _, _, hop⟩
    cases hop

theorem blockOps_mem_ups (rows : List OutputRow) (ts : List Transaction)
    (t : Transaction) (ht : t ∈ ts) (o : TxOutput) (ho : o ∈ t.outputs) :
    BalOp.ups o.address o.value ∈ blockOps rows ts := by
  induction ts with
  | nil => cases ht
  | cons t2 rest ih =>
    rcases List.mem_cons.mp ht with he | hm
    · subst he
      exact List.mem_append_left _
        (List.mem_append_left _ (List.mem_map.mpr ⟨o, ho, rfl⟩))
    · exact List.mem_append_right _ (ih hm)

theorem rollback_inverts_apply (s : Ledger) (b : Block) (s' X : Ledger)
    (hWF : WF s) (hval : validate s b = none) (hok : applyBlock s b = .ok s')
    (hTE : TablesEq X s')
    (hbal : balVal X.balances = balVal s'.balances)
    (hkeys : ∀ a, hasKey s'.balances a = true → hasKey X.balances a = true) :
    TablesEq (rollbackBlock X b.id) s ∧
    balVal (rollbackBlock X b.id).balances = balVal s.balances ∧
    (rollbackBlock X b.id).balances.map Prod.fst = X.balances.map Prod.fst := by
  obtain ⟨hW1, hW2, hW3, hW4, hW4b, hW5, hW6, hW7, hW8⟩ := hWF
  have hfoundS := validate_found s b hval
  have hfound : ∀ t ∈ b.transactions, ∀ i ∈ t.inputs,
      lookupOutput s.outputs i.txId i.index ≠ none := by
    intro t ht i hi
    rcases hfoundS t ht i hi with ⟨r, hr, _⟩
    rw [hr]
    simp
  obtain ⟨hb, hfresh, hnd, hs'⟩ := applyBlock_ok_spec s b s' hok hfound hW4
  have hbid_not : b.id ∉ s.blocks.map Prod.fst := by
    intro hmem
    rcases List.mem_map.mp hmem with ⟨p, hp, hpe⟩
    have : s.blocks.any (fun p => p.1 == b.id || p.2 == b.height) = true :=
      List.any_eq_true.mpr ⟨p, hp, by simp [hpe]⟩
    rw [hb] at this
    cases this
  have hrefold : ∀ j ∈ allRefs b.transactions,
      ∃ r, lookupOutput s.outputs j.txId j.index = some r ∧ r.spent = false := by
    intro j hj
    rcases mem_allRefs b.transactions j hj with ⟨t, ht, hji⟩
    exact hfoundS t ht j hji
  have hreftx : ∀ j ∈ allRefs b.transactions, j.txId ∈ s.transactions.map Prod.fst := by
    intro j hj
    rcases hrefold j hj with ⟨r, hr, _⟩
    have hm := lookupOutput_mem _ _ _ _ hr
    exact hm.2.1 ▸ hW4 r hm.1
  have hnomatchNew : ∀ j ∈ allRefs b.transactions, ∀ r ∈ newRows b.transactions,
      ¬(r.tx_id = j.txId ∧ r.output_index = j.index) := by
    rintro j hj r hrm ⟨hrt, _⟩
    rcases mem_newRows b.transactions r hrm with ⟨t2, ht2, hro⟩
    have h1 : r.tx_id = t2.id := (mem_outRows _ _ _ _ hro).1
    exact (hfresh t2 ht2) (by rw [← h1, hrt]; exact hreftx j hj)
  have hs'outs : s'.outputs
      = markAll (s.outputs ++ newRows b.transactions) (allRefs b.transactions) := by
    rw [hs']
  have hs'trans : s'.transactions = s.transactions ++ txRows b.id b.transactions := by
    rw [hs']
  have hs'blocks : s'.blocks = s.blocks ++ [(b.id, b.height)] := by
    rw [hs']
  have hs'ins : s'.inputs = s.inputs ++ allInRows b.transactions := by
    rw [hs']
  have hs'bal : s'.balances = runOps s.balances (blockOps s.outputs b.transactions) := by
    rw [hs']
  have hXout : X.outputs = markAll s.outputs (allRefs b.transactions)
      ++ newRows b.transactions := by
    rw [hTE.2.2.1, hs'outs]
    exact markAll_append (allRefs b.transactions) s.outputs (newRows b.transactions)
      hnomatchNew
  have hrbspec := rollbackBlock_spec b.transactions b.id X s.transactions
    (markAll s.outputs (allRefs b.transactions)) s.inputs
    (by rw [hTE.2.1, hs'trans])
    (fun p hp he => hbid_not (he ▸ hW7 p hp))
    (fun p hp hmem => by
      rcases List.mem_map.mp hmem with ⟨t, ht, hte⟩
      exact hfresh t ht (by rw [hte]; exact List.mem_map.mpr ⟨p, hp, rfl⟩))
    hXout
    (fun r hrm hmem => by
      rcases mem_markAll_fields _ _ _ hrm with ⟨r0, hr0, htid, _⟩
      rcases List.mem_map.mp hmem with ⟨t, ht, hte⟩
      exact hfresh t ht (by rw [hte, htid]; exact hW4 r0 hr0))
    (by rw [hTE.2.2.2, hs'ins])
    (fun ir hir hmem => by
      rcases List.mem_map.mp hmem with ⟨t, ht, hte⟩
      exact hfresh t ht (by rw [hte]; exact hW5 ir hir))
    hnd
    (fun t ht i hi => by
      rcases hfoundS t ht i hi with ⟨r, hr, _⟩
      have hne : lookupOutput (markAll s.outputs (allRefs b.transactions))
          i.txId i.index ≠ none := by
        rw [lookupOutput_ne_none_iff, lookupAV_markAll]
        unfold lookupAV
        rw [hr]
        simp
      cases hl : lookupOutput (markAll s.outputs (allRefs b.transactions)) i.txId i.index with
      | none => exact absurd hl hne
      | some r2 => exact ⟨r2, rfl⟩)
  have hblocks : X.blocks.filter (fun p => !(p.1 == b.id)) = s.blocks := by
    rw [hTE.1, hs'blocks, List.filter_append,
      filter_all_true s.blocks _ (fun p hp => by
        have hne : p.1 ≠ b.id := fun he => hbid_not (he ▸ List.mem_map.mpr ⟨p, hp, rfl⟩)
        simp [beq_eq_false_iff_ne.mpr hne])]
    simp
  have houts : unmarkAll (markAll s.outputs (allRefs b.transactions))
      (allRefs b.transactions) = s.outputs := by
    apply unmarkAll_markAll
    intro r hrm hma
    rcases matchesAny_true_elim _ _ hma with ⟨j, hj, hk1, hk2⟩
    rcases hrefold j hj with ⟨r0, hr0, hsp0⟩
    have hm0 := lookupOutput_mem _ _ _ _ hr0
    have heq : r = r0 := nodup_key_unique s.outputs hW4b r r0 hrm hm0.1
      ⟨by rw [hk1, hm0.2.1], by rw [hk2, hm0.2.2]⟩
    rw [heq]
    exact hsp0
  have hrbops : rbOps (markAll s.outputs (allRefs b.transactions)) b.transactions
      = rbOps s.outputs b.transactions :=
    rbOps_congr b.transactions _ _
      (fun t _ i _ => lookupAV_markAll (allRefs b.transactions) s.outputs i.txId i.index)
  have hOkApply : OpsOk s.balances (blockOps s.outputs b.transactions) := by
    apply OpsOk_of_adj_present
    intro a v hmem
    rcases mem_blockOps s.outputs b.transactions _ hmem with h2 | h2
    · rcases h2 with ⟨t, ht, o, ho, hop⟩
      cases hop
    · rcases h2 with ⟨i, hi, av, hav, hop⟩
      injection hop with ha hv
      subst ha
      unfold lookupAV at hav
      cases hr : lookupOutput s.outputs i.txId i.index with
      | none =>
        rw [hr] at hav
        cases hav
      | some r =>
        rw [hr] at hav
        have : av = (r.address, r.value) := by
          injection hav with h3
          exact h3.symm
        rw [this]
        exact hW6 r (lookupOutput_mem _ _ _ _ hr).1
  have hkeys_s' : ∀ a, hasKey s.balances a = true → hasKey s'.balances a = true := by
    intro a ha
    rw [hs'bal]
    exact hasKey_runOps_mono _ _ _ ha
  have hOkRb : OpsOk X.balances (rbOps s.outputs b.transactions) := by
    apply OpsOk_of_adj_present
    intro a v hmem
    rcases mem_rbOps s.outputs b.transactions _ hmem with h2 | h2
    · rcases h2 with ⟨i, hi, av, hav, hop⟩
      injection hop with ha hv
      subst ha
      apply hkeys
      apply hkeys_s'
      unfold lookupAV at hav
      cases hr : lookupOutput s.outputs i.txId i.index with
      | none =>
        rw [hr] at hav
        cases hav
      | some r =>
        rw [hr] at hav
        have : av = (r.address, r.value) := by
          injection hav with h3
          exact h3.symm
        rw [this]
        exact hW6 r (lookupOutput_mem _ _ _ _ hr).1
    · rcases h2 with ⟨t, ht, r, hr, hop⟩
      injection hop with ha hv
      subst ha
      apply hkeys
      rw [hs'bal]
      rcases mem_outRows _ _ _ _ hr with ⟨_, _, o, ho, hoa, _⟩
      rw [hoa]
      exact hasKey_runOps_of_ups _ _ _ o.value (blockOps_mem_ups s.outputs b.transactions t ht o ho)
  refine ⟨?_, ?_, ?_⟩
  · rw [hrbspec]
    exact ⟨hblocks, rfl, houts, rfl⟩
  · rw [hrbspec]
    show balVal (runOps X.balances
        (rbOps (markAll s.outputs (allRefs b.transactions)) b.transactions)) = _
    rw [hrbops]
    funext x
    rw [balVal_runOps _ _ hOkRb x, hbal, hs'bal, balVal_runOps _ _ hOkApply x]
    have hcancel := opsDelta_blockOps_rbOps b.transactions s.outputs x
    linarith
  · rw [hrbspec]
    show (runOps X.balances
        (rbOps (markAll s.outputs (allRefs b.transactions)) b.transactions)).map Prod.fst = _
    rw [hrbops]
    apply keys_runOps_present
    intro op hop a v hopeq
    exact absurd (hopeq ▸ hop) (fun hh => rbOps_no_ups s.outputs b.transactions a v hh)

theorem foldr_max_le (l : List (String × Nat)) (m : Nat)
    (h : ∀ p ∈ l, p.2 ≤ m) : l.foldr (fun q n => max q.2 n) 0 ≤ m := by
  induction l with
  | nil => exact Nat.zero_le m
  | cons q rest ih =>
    exact max_le (h q (List.mem_cons_self _ _))
      (ih (fun p hp => h p (List.mem_cons_of_mem _ hp)))

theorem currentHeight_of_heights (l : List (String × Nat))
    (h : l.map Prod.snd = List.range' 1 l.length) :
    l.foldr (fun p m => max p.2 m) 0 = l.length := by
  apply Nat.le_antisymm
  · apply foldr_max_le
    intro p hp
    have hm : p.2 ∈ List.range' 1 l.length := h ▸ List.mem_map.mpr ⟨p, hp, rfl⟩
    have h2 := List.mem_range'_1.mp hm
    omega
  · cases hn : l.length with
    | zero => exact Nat.zero_le _
    | succ n =>
      have hmem : l.length ∈ List.range' 1 l.length :=
        List.mem_range'_1.mpr ⟨by omega, by omega⟩
      rw [← h] at hmem
      rcases List.mem_map.mp hmem with ⟨p, hp, hpe⟩
      have hle := height_le_foldr_max l p hp
      omega

theorem range'_snoc (a n : Nat) : List.range' a (n + 1) = List.range' a n ++ [a + n] := by
  induction n generalizing a with
  | zero => rfl
  | succ m ih =>
    show a :: List.range' (a + 1) (m + 1) = (a :: List.range' (a + 1) m) ++ [a + (m + 1)]
    rw [ih (a + 1)]
    simp only [List.cons_append]
    have he : a + 1 + m = a + (m + 1) := by omega
    rw [he]

theorem keys_markAll (refs : List TxInput) (rows : List OutputRow) :
    (markAll rows refs).map (fun r => (r.tx_id, r.output_index))
      = rows.map (fun r => (r.tx_id, r.output_index)) := by
  rw [markAll_eq_map, List.map_map]
  apply List.map_congr_left
  intro r _
  by_cases hm : matchesAny refs r = true <;> simp [hm]

theorem outRows_keys (txId : String) (outs : List TxOutput) (i : Nat) :
    (outRows txId i outs).map (fun r => (r.tx_id, r.output_index))
      = (List.range' i outs.length).map (fun k => (txId, k)) := by
  induction outs generalizing i with
  | nil => rfl
  | cons o rest ih =>
    show (txId, i) :: (outRows txId (i + 1) rest).map _
      = (txId, i) :: (List.range' (i + 1) rest.length).map _
    rw [ih (i + 1)]

theorem newRows_tx_ids (ts : List Transaction) (r : OutputRow) (h : r ∈ newRows ts) :
    r.tx_id ∈ ts.map Transaction.id := by
  rcases mem_newRows ts r h with ⟨t, ht, hro⟩
  rw [(mem_outRows _ _ _ _ hro).1]
  exact List.mem_map.mpr ⟨t, ht, rfl⟩

theorem nodup_keys_newRows (ts : List Transaction)
    (hnd : (ts.map Transaction.id).Nodup) :
    ((newRows ts).map (fun r => (r.tx_id, r.output_index))).Nodup := by
  induction ts with
  | nil => exact List.nodup_nil
  | cons t rest ih =>
    have hnd2 := List.nodup_cons.mp hnd
    rw [show newRows (t :: rest) = outRows t.id 0 t.outputs ++ newRows rest from rfl,
      List.map_append]
    refine List.Nodup.append ?_ (ih hnd2.2) ?_
    · rw [outRows_keys]
      exact List.Nodup.map (fun a b h2 => congrArg Prod.snd h2) (List.nodup_range' _ _)
    · intro x hx1 hx2
      rcases List.mem_map.mp hx1 with ⟨r1, hr1, he1⟩
      rcases List.mem_map.mp hx2 with ⟨r2, hr2, he2⟩
      have ht2 := newRows_tx_ids rest r2 hr2
      have e1 : x.1 = t.id := by rw [← he1]; exact (mem_outRows _ _ _ _ hr1).1
      have e2 : x.1 = r2.tx_id := by rw [← he2]
      apply hnd2.1
      rw [← e1, e2]
      exact ht2

theorem WF_applyBlock (s : Ledger) (b : Block) (s' : Ledger)
    (hWF : WF s) (hval : validate s b = none) (hok : applyBlock s b = .ok s') :
    WF s' := by
  obtain ⟨hW1, hW2, hW3, hW4, hW4b, hW5, hW6, hW7, hW8⟩ := hWF
  have hfoundS := validate_found s b hval
  have hfound : ∀ t ∈ b.transactions, ∀ i ∈ t.inputs,
      lookupOutput s.outputs i.txId i.index ≠ none := by
    intro t ht i hi
    rcases hfoundS t ht i hi with ⟨r, hr, _⟩
    rw [hr]
    simp
  obtain ⟨hb, hfresh, hnd, hs'⟩ := applyBlock_ok_spec s b s' hok hfound hW4
  have hbid_not : b.id ∉ s.blocks.map Prod.fst := by
    intro hmem
    rcases List.mem_map.mp hmem with ⟨p, hp, hpe⟩
    have : s.blocks.any (fun p => p.1 == b.id || p.2 == b.height) = true :=
      List.any_eq_true.mpr ⟨p, hp, by simp [hpe]⟩
    rw [hb] at this
    cases this
  have hbh : b.height = s.blocks.length + 1 := by
    rw [(validate_none_parts s b hval).1]
    rw [show currentHeight s = s.blocks.length from currentHeight_of_heights s.blocks hW1]
  subst hs'
  unfold WF
  refine ⟨?_, ?_, ?_, ?_, ?_, ?_, ?_, ?_, ?_⟩
  · show (s.blocks ++ [(b.id, b.height)]).map Prod.snd
      = List.range' 1 (s.blocks ++ [(b.id, b.height)]).length
    have h1 : (s.blocks ++ [(b.id, b.height)]).map Prod.snd
        = List.range' 1 s.blocks.length ++ [b.height] := by
      rw [List.map_append, hW1]
      rfl
    have hlen : (s.blocks ++ [(b.id, b.height)]).length = s.blocks.length + 1 := by simp
    rw [h1, hlen, hbh, range'_snoc]
    simp [Nat.add_comm]
  · show ((s.blocks ++ [(b.id, b.height)]).map Prod.fst).Nodup
    rw [List.map_append]
    refine List.Nodup.append hW2 (by simp) ?_
    intro x hx1 hx2
    have hx : x = b.id := by simpa using hx2
    exact hbid_not (hx ▸ hx1)
  · show ((s.transactions ++ txRows b.id b.transactions).map Prod.fst).Nodup
    rw [List.map_append, txRows_map_fst]
    refine List.Nodup.append hW3 hnd ?_
    intro x hx1 hx2
    rcases List.mem_map.mp hx2 with ⟨t, ht, hte⟩
    exact hfresh t ht (hte ▸ hx1)
  · intro r hr
    rcases mem_markAll_fields _ _ _ hr with ⟨r0, hr0, htid, _⟩
    show r.tx_id ∈ (s.transactions ++ txRows b.id b.transactions).map Prod.fst
    rw [List.map_append, txRows_map_fst]
    rcases List.mem_append.mp hr0 with hold | hnew
    · exact List.mem_append_left _ (by rw [htid]; exact hW4 r0 hold)
    · exact List.mem_append_right _
        (by rw [htid]; exact newRows_tx_ids b.transactions r0 hnew)
  · show ((markAll (s.outputs ++ newRows b.transactions) (allRefs b.transactions)).map
      (fun r => (r.tx_id, r.output_index))).Nodup
    rw [keys_markAll, List.map_append]
    refine List.Nodup.append hW4b (nodup_keys_newRows b.transactions hnd) ?_
    intro x hx1 hx2
    rcases List.mem_map.mp hx1 with ⟨r1, hr1, he1⟩
    rcases List.mem_map.mp hx2 with ⟨r2, hr2, he2⟩
    have ht2 := newRows_tx_ids b.transactions r2 hr2
    rcases List.mem_map.mp ht2 with ⟨t, ht, hte⟩
    apply hfresh t ht
    have e1 : x.1 = r1.tx_id := by rw [← he1]
    have e2 : x.1 = r2.tx_id := by rw [← he2]
    rw [hte, ← e2, e1]
    exact hW4 r1 hr1
  · intro ir hir
    show ir.tx_id ∈ (s.transactions ++ txRows b.id b.transactions).map Prod.fst
    rw [List.map_append, txRows_map_fst]
    rcases List.mem_append.mp hir with hold | hnew
    · exact List.mem_append_left _ (hW5 ir hold)
    · exact List.mem_append_right _ (mem_allInRows b.transactions ir hnew)
  · intro r hr
    rcases mem_markAll_fields _ _ _ hr with ⟨r0, hr0, _, _, haddr, _⟩
    show hasKey (runOps s.balances (blockOps s.outputs b.transactions)) r.address = true
    rw [haddr]
    rcases List.mem_append.mp hr0 with hold | hnew
    · exact hasKey_runOps_mono _ _ _ (hW6 r0 hold)
    · rcases mem_newRows _ _ hnew with ⟨t, ht, hro⟩
      rcases mem_outRows _ _ _ _ hro with ⟨_, _, o, ho, hoa, _⟩
      rw [hoa]
      exact hasKey_runOps_of_ups _ _ _ o.value
        (blockOps_mem_ups s.outputs b.transactions t ht o ho)
  · intro p hp
    show p.2 ∈ (s.blocks ++ [(b.id, b.height)]).map Prod.fst
    rw [List.map_append]
    rcases List.mem_append.mp hp with hold | hnew
    · exact List.mem_append_left _ (hW7 p hold)
    · apply List.mem_append_right
      rw [(mem_txRows b.id b.transactions p hnew).1]
      simp
  · exact keys_nodup_runOps _ _ hW8

theorem submitBlock_ok_parts (s : Ledger) (b : Block) (s' : Ledger)
    (h : submitBlock s b = .ok s') :
    validate s b = none ∧ applyBlock s b = .ok s' := by
  cases hv : validate s b with
  | some e => simp [submitBlock, hv] at h
  | none => exact ⟨rfl, by simpa [submitBlock, hv] using h⟩

theorem replay_cons_ok (v : Ledger) (b : Block) (rest : List Block) (w : Ledger)
    (hrep : replay v (b :: rest) = some w) :
    ∃ v1, submitBlock v b = .ok v1 ∧ replay v1 rest = some w := by
  cases hsb : submitBlock v b with
  | error e => simp [replay, hsb] at hrep
  | ok v1 => exact ⟨v1, rfl, by simpa [replay, hsb] using hrep⟩

theorem replay_append (l1 l2 : List Block) (v : Ledger) :
    replay v (l1 ++ l2) = (replay v l1).bind (fun m => replay m l2) := by
  induction l1 generalizing v with
  | nil => rfl
  | cons b rest ih =>
    cases hsb : submitBlock v b with
    | error e => simp [replay, hsb]
    | ok v1 => simp [replay, hsb, ih v1]

theorem validate_found_ne (s : Ledger) (b : Block) (hval : validate s b = none) :
    ∀ t ∈ b.transactions, ∀ i ∈ t.inputs,
      lookupOutput s.outputs i.txId i.index ≠ none := by
  intro t ht i hi
  rcases validate_found s b hval t ht i hi with ⟨r, hr, _⟩
  rw [hr]
  simp

theorem WF_replay (bs : List Block) (v w : Ledger) (hWF : WF v)
    (hrep : replay v bs = some w) : WF w := by
  induction bs generalizing v with
  | nil =>
    have h2 : v = w := by simpa [replay] using hrep
    exact h2 ▸ hWF
  | cons b rest ih =>
    rcases replay_cons_ok v b rest w hrep with ⟨v1, hsb, hrep1⟩
    rcases submitBlock_ok_parts v b v1 hsb with ⟨hval, hok⟩
    exact ih v1 (WF_applyBlock v b v1 hWF hval hok) hrep1

theorem blocks_length_replay (bs : List Block) (v w : Ledger) (hWF : WF v)
    (hrep : replay v bs = some w) : w.blocks.length = v.blocks.length + bs.length := by
  induction bs generalizing v with
  | nil =>
    have h2 : v = w := by simpa [replay] using hrep
    rw [← h2]
    simp
  | cons b rest ih =>
    rcases replay_cons_ok v b rest w hrep with ⟨v1, hsb, hrep1⟩
    rcases submitBlock_ok_parts v b v1 hsb with ⟨hval, hok⟩
    obtain ⟨_, _, _, hs1⟩ := applyBlock_ok_spec v b v1 hok
      (validate_found_ne v b hval) hWF.2.2.2.1
    have hrec := ih v1 (WF_applyBlock v b v1 hWF hval hok) hrep1
    rw [hrec, show v1.blocks = v.blocks ++ [(b.id, b.height)] from by rw [hs1]]
    simp [List.length_append]
    omega

theorem hasKey_replay_mono (bs : List Block) (v w : Ledger) (hWF : WF v)
    (hrep : replay v bs = some w) (a : String) (h : hasKey v.balances a = true) :
    hasKey w.balances a = true := by
  induction bs generalizing v with
  | nil =>
    have h2 : v = w := by simpa [replay] using hrep
    exact h2 ▸ h
  | cons b rest ih =>
    rcases replay_cons_ok v b rest w hrep with ⟨v1, hsb, hrep1⟩
    rcases submitBlock_ok_parts v b v1 hsb with ⟨hval, hok⟩
    obtain ⟨_, _, _, hs1⟩ := applyBlock_ok_spec v b v1 hok
      (validate_found_ne v b hval) hWF.2.2.2.1
    apply ih v1 (WF_applyBlock v b v1 hWF hval hok) hrep1
    rw [show v1.balances = runOps v.balances (blockOps v.outputs b.transactions) from
      by rw [hs1]]
    exact hasKey_runOps_mono _ _ _ h

theorem outputs_address_replay (bs : List Block) (v w : Ledger) (r : OutputRow)
    (hWF : WF v) (hrep : replay v bs = some w) (hr : r ∈ v.outputs) :
    ∃ r2 ∈ w.outputs, r2.address = r.address := by
  induction bs generalizing v r with
  | nil =>
    have h2 : v = w := by simpa [replay] using hrep
    exact ⟨r, h2 ▸ hr, rfl⟩
  | cons b rest ih =>
    rcases replay_cons_ok v b rest w hrep with ⟨v1, hsb, hrep1⟩
    rcases submitBlock_ok_parts v b v1 hsb with ⟨hval, hok⟩
    obtain ⟨_, _, _, hs1⟩ := applyBlock_ok_spec v b v1 hok
      (validate_found_ne v b hval) hWF.2.2.2.1
    have hmem1 : ∃ r1 ∈ v1.outputs, r1.address = r.address := by
      rw [show v1.outputs
          = markAll (v.outputs ++ newRows b.transactions) (allRefs b.transactions) from
        by rw [hs1], markAll_eq_map]
      refine ⟨_, List.mem_map.mpr ⟨r, List.mem_append_left _ hr, rfl⟩, ?_⟩
      by_cases hm : matchesAny (allRefs b.transactions) r = true <;> simp [hm]
    rcases hmem1 with ⟨r1, hr1, ha1⟩
    rcases ih v1 r1 (WF_applyBlock v b v1 hWF hval hok) hrep1 hr1 with ⟨r2, hr2, ha2⟩
    exact ⟨r2, hr2, ha2.trans ha1⟩

theorem find_top (B : List (String × Nat)) (bid : String) (n : Nat)
    (h : ∀ p ∈ B, p.2 ≠ n) :
    List.find? (fun p => p.2 == n) (B ++ [(bid, n)]) = some (bid, n) := by
  induction B with
  | nil => simp
  | cons q rest ih =>
    rw [List.cons_append,
      List.find?_cons_of_neg _ (by simp [h q (List.mem_cons_self _ _)])]
    exact ih (fun p hp => h p (List.mem_cons_of_mem _ hp))

theorem rollbackSteps_stop (h fuel : Nat) (X : Ledger) (hc : ¬ h < currentHeight X) :
    rollbackSteps h fuel X = X := by
  cases fuel with
  | zero => rfl
  | succ n => simp [rollbackSteps, hc]

theorem rollbackSteps_step (h f : Nat) (X : Ledger) (pr : String × Nat)
    (hc : h < currentHeight X)
    (hf : X.blocks.find? (fun p => p.2 == currentHeight X) = some pr) :
    rollbackSteps h (f + 1) X = rollbackSteps h f (rollbackBlock X pr.1) := by
  simp only [rollbackSteps]
  rw [if_pos hc, hf]

theorem rollback_chain (bs2 : List Block) (sh s X : Ledger) (fuel : Nat)
    (hWFh : WF sh) (hrep : replay sh bs2 = some s)
    (hfuel : bs2.length ≤ fuel)
    (hTE : TablesEq X s)
    (hbal : balVal X.balances = balVal s.balances)
    (hkeys : ∀ a, hasKey s.balances a = true → hasKey X.balances a = true) :
    TablesEq (rollbackSteps sh.blocks.length fuel X) sh ∧
    balVal (rollbackSteps sh.blocks.length fuel X).balances = balVal sh.balances ∧
    (rollbackSteps sh.blocks.length fuel X).balances.map Prod.fst
      = X.balances.map Prod.fst := by
  induction bs2 using List.reverseRecOn generalizing s X fuel with
  | nil =>
    have hsh : sh = s := by simpa [replay] using hrep
    subst hsh
    have hstop : ¬ sh.blocks.length < currentHeight X := by
      rw [show currentHeight X = currentHeight sh from by unfold currentHeight; rw [hTE.1],
        show currentHeight sh = sh.blocks.length from
          currentHeight_of_heights _ hWFh.1]
      omega
    rw [rollbackSteps_stop _ _ _ hstop]
    exact ⟨hTE, hbal, rfl⟩
  | append_singleton l b ih =>
    rw [replay_append] at hrep
    cases hm : replay sh l with
    | none =>
      rw [hm] at hrep
      cases hrep
    | some smid =>
      rw [hm] at hrep
      have hrep2 : replay smid [b] = some s := hrep
      rcases replay_cons_ok smid b [] s hrep2 with ⟨s1, hsb, hrep3⟩
      have hs1 : s1 = s := by simpa [replay] using hrep3
      subst hs1
      rcases submitBlock_ok_parts smid b s1 hsb with ⟨hval, hok⟩
      have hWFmid : WF smid := WF_replay l sh smid hWFh hm
      have hWFs : WF s1 := WF_applyBlock smid b s1 hWFmid hval hok
      obtain ⟨hbdup, hfresh, hnd, hsrec⟩ := applyBlock_ok_spec smid b s1 hok
        (validate_found_ne smid b hval) hWFmid.2.2.2.1
      have hsblocks : s1.blocks = smid.blocks ++ [(b.id, b.height)] := by rw [hsrec]
      have hslen : s1.blocks.length = smid.blocks.length + 1 := by
        rw [hsblocks]
        simp
      have hmidlen : smid.blocks.length = sh.blocks.length + l.length :=
        blocks_length_replay l sh smid hWFh hm
      have hch : currentHeight X = s1.blocks.length := by
        rw [show currentHeight X = currentHeight s1 from
            by unfold currentHeight; rw [hTE.1]]
        exact currentHeight_of_heights _ hWFs.1
      have hmidheights : currentHeight smid = smid.blocks.length :=
        currentHeight_of_heights _ hWFmid.1
      have hbh : b.height = smid.blocks.length + 1 := by
        rw [(validate_none_parts smid b hval).1, hmidheights]
      have hlt : sh.blocks.length < currentHeight X := by omega
      have hbtop : b.height = currentHeight X := by omega
      have hfind : X.blocks.find? (fun p => p.2 == currentHeight X)
          = some (b.id, b.height) := by
        rw [hTE.1, hsblocks, ← hbtop]
        apply find_top
        intro p hp he
        have hple : p.2 ≤ currentHeight smid := mem_blocks_height_le smid p hp
        omega
      cases fuel with
      | zero =>
        exfalso
        simp [List.length_append] at hfuel
      | succ f =>
        rw [rollbackSteps_step sh.blocks.length f X (b.id, b.height) hlt hfind]
        have hinv := rollback_inverts_apply smid b s1 X hWFmid hval hok hTE hbal hkeys
        have hkeys2 : ∀ a, hasKey smid.balances a = true →
            hasKey (rollbackBlock X b.id).balances a = true := by
          intro a ha
          rw [hasKey_congr_keys _ _ _ hinv.2.2]
          apply hkeys
          rw [show s1.balances
              = runOps smid.balances (blockOps smid.outputs b.transactions) from
            by rw [hsrec]]
          exact hasKey_runOps_mono _ _ _ ha
        have hrec := ih smid (rollbackBlock X b.id) f hm
          (by simp [List.length_append] at hfuel; omega)
          hinv.1 hinv.2.1 hkeys2
        exact ⟨hrec.1, hrec.2.1, hrec.2.2.trans hinv.2.2⟩

theorem OpsOk_blockOps (rows : List OutputRow) (ts : List Transaction)
    (bal : List (String × Int)) (h : ∀ r ∈ rows, hasKey bal r.address = true) :
    OpsOk bal (blockOps rows ts) := by
  apply OpsOk_of_adj_present
  intro a v hmem
  rcases mem_blockOps rows ts _ hmem with h2 | h2
  · rcases h2 with ⟨t, ht, o, ho, hop⟩
    cases hop
  · rcases h2 with ⟨i, hi, av, hav, hop⟩
    injection hop with ha hv
    subst ha
    unfold lookupAV at hav
    cases hr : lookupOutput rows i.txId i.index with
    | none =>
      rw [hr] at hav
      cases hav
    | some r =>
      rw [hr] at hav
      have hre : av = (r.address, r.value) := by
        injection hav with h3
        exact h3.symm
      rw [hre]
      exact h r (lookupOutput_mem _ _ _ _ hr).1

theorem outRows_mem_of (txId : String) (outs : List TxOutput) (i : Nat)
    (o : TxOutput) (ho : o ∈ outs) :
    ∃ r ∈ outRows txId i outs, r.address = o.address := by
  induction outs generalizing i with
  | nil => cases ho
  | cons o2 rest ih =>
    rcases List.mem_cons.mp ho with he | hm
    · subst he
      exact ⟨⟨txId, i, o.address, o.value, false⟩, List.mem_cons_self _ _, rfl⟩
    · rcases ih (i + 1) hm with ⟨r, hr, ha⟩
      exact ⟨r, List.mem_cons_of_mem _ hr, ha⟩

theorem newRows_mem_of (ts : List Transaction) (t : Transaction) (ht : t ∈ ts)
    (r : OutputRow) (hr : r ∈ outRows t.id 0 t.outputs) : r ∈ newRows ts := by
  induction ts with
  | nil => cases ht
  | cons t2 rest ih =>
    rcases List.mem_cons.mp ht with he | hm
    · subst he
      exact List.mem_append_left _ hr
    · exact List.mem_append_right _ (ih hm)

theorem ledger_ext (x y : Ledger) (h1 : x.blocks = y.blocks)
    (h2 : x.transactions = y.transactions) (h3 : x.outputs = y.outputs)
    (h4 : x.inputs = y.inputs) (h5 : x.balances = y.balances) : x = y := by
  cases x
  cases y
  simp only at h1 h2 h3 h4 h5
  rw [h1, h2, h3, h4, h5]

theorem replay_parallel (bs2 : List Block) (v w sfin : Ledger)
    (hWFv : WF v) (hWFfin : WF sfin)
    (hrep : replay v bs2 = some sfin)
    (hTE : TablesEq w v)
    (hbal : balVal w.balances = balVal v.balances)
    (hwkeys : w.balances.map Prod.fst = sfin.balances.map Prod.fst) :
    ∃ wfin, replay w bs2 = some wfin ∧ TablesEq wfin sfin ∧
      balVal wfin.balances = balVal sfin.balances ∧
      wfin.balances.map Prod.fst = w.balances.map Prod.fst := by
  induction bs2 generalizing v w with
  | nil =>
    have h2 : v = sfin := by simpa [replay] using hrep
    subst h2
    exact ⟨w, rfl, hTE, hbal, rfl⟩
  | cons b rest ih =>
    rcases replay_cons_ok v b rest sfin hrep with ⟨v1, hsb, hrep1⟩
    rcases submitBlock_ok_parts v b v1 hsb with ⟨hval, hok⟩
    obtain ⟨hbdup, hfresh, hnd, hv1rec⟩ := applyBlock_ok_spec v b v1 hok
      (validate_found_ne v b hval) hWFv.2.2.2.1
    have hWFv1 : WF v1 := WF_applyBlock v b v1 hWFv hval hok
    have hvalw : validate w b = none := by
      rw [show validate w b = validate v b from by
        unfold validate currentHeight
        rw [hTE.1, hTE.2.2.1]]
      exact hval
    have hbuildw := applyBlock_build w b
      (by rw [hTE.1]; exact hbdup)
      (by rw [hTE.2.1]; exact hfresh)
      hnd
      (by rw [hTE.2.2.1]; exact validate_found_ne v b hval)
      (by rw [hTE.2.2.1, hTE.2.1]; exact hWFv.2.2.2.1)
    have hsbw : submitBlock w b = .ok ⟨w.blocks ++ [(b.id, b.height)],
        w.transactions ++ txRows b.id b.transactions,
        markAll (w.outputs ++ newRows b.transactions) (allRefs b.transactions),
        w.inputs ++ allInRows b.transactions,
        runOps w.balances (blockOps w.outputs b.transactions)⟩ := by
      unfold submitBlock
      rw [hvalw]
      exact hbuildw
    have hTE1 : TablesEq ⟨w.blocks ++ [(b.id, b.height)],
        w.transactions ++ txRows b.id b.transactions,
        markAll (w.outputs ++ newRows b.transactions) (allRefs b.transactions),
        w.inputs ++ allInRows b.transactions,
        runOps w.balances (blockOps w.outputs b.transactions)⟩ v1 := by
      rw [hv1rec]
      exact ⟨by rw [hTE.1], by rw [hTE.2.1], by rw [hTE.2.2.1], by rw [hTE.2.2.2]⟩
    have hkeymono : ∀ a, hasKey v.balances a = true → hasKey sfin.balances a = true :=
      fun a ha => hasKey_replay_mono (b :: rest) v sfin hWFv hrep a ha
    have hOkv : OpsOk v.balances (blockOps v.outputs b.transactions) :=
      OpsOk_blockOps v.outputs b.transactions v.balances hWFv.2.2.2.2.2.2.1
    have hOkw : OpsOk w.balances (blockOps w.outputs b.transactions) := by
      rw [hTE.2.2.1]
      apply OpsOk_blockOps
      intro r hr
      rw [hasKey_congr_keys _ _ _ hwkeys]
      exact hkeymono r.address (hWFv.2.2.2.2.2.2.1 r hr)
    have hbal1 : balVal (runOps w.balances (blockOps w.outputs b.transactions))
        = balVal v1.balances := by
      funext x
      rw [show v1.balances = runOps v.balances (blockOps v.outputs b.transactions) from
        by rw [hv1rec]]
      rw [show blockOps w.outputs b.transactions
          = blockOps v.outputs b.transactions from by rw [hTE.2.2.1]] at hOkw ⊢
      rw [balVal_runOps _ _ hOkw x, balVal_runOps _ _ hOkv x, hbal]
    have hupskeys : ∀ op ∈ blockOps w.outputs b.transactions, ∀ a u,
        op = BalOp.ups a u → hasKey w.balances a = true := by
      intro op hop a u hopeq
      subst hopeq
      rw [show blockOps w.outputs b.transactions
          = blockOps v.outputs b.transactions from by rw [hTE.2.2.1]] at hop
      rcases mem_blockOps v.outputs b.transactions _ hop with h2 | h2
      · rcases h2 with ⟨t, ht, o, ho, hop2⟩
        injection hop2 with ha hu
        subst ha
        rcases outRows_mem_of t.id t.outputs 0 o ho with ⟨r, hr, hra⟩
        have hrnew : r ∈ newRows b.transactions := newRows_mem_of b.transactions t ht r hr
        have hr1 : ∃ r1 ∈ v1.outputs, r1.address = r.address := by
          rw [show v1.outputs = markAll (v.outputs ++ newRows b.transactions)
              (allRefs b.transactions) from by rw [hv1rec], markAll_eq_map]
          refine ⟨_, List.mem_map.mpr ⟨r, List.mem_append_right _ hrnew, rfl⟩, ?_⟩
          by_cases hma : matchesAny (allRefs b.transactions) r = true <;> simp [hma]
        rcases hr1 with ⟨r1, hr1m, hr1a⟩
        rcases outputs_address_replay rest v1 sfin r1 hWFv1 hrep1 hr1m with ⟨r2, hr2, hr2a⟩
        rw [hasKey_congr_keys _ _ _ hwkeys, ← hra, ← hr1a, ← hr2a]
        exact hWFfin.2.2.2.2.2.2.1 r2 hr2
      · rcases h2 with ⟨i, hi, av, hav, hop2⟩
        cases hop2
    have hwkeys1 : (runOps w.balances (blockOps w.outputs b.transactions)).map Prod.fst
        = w.balances.map Prod.fst := keys_runOps_present _ _ hupskeys
    rcases ih v1 ⟨w.blocks ++ [(b.id, b.height)],
        w.transactions ++ txRows b.id b.transactions,
        markAll (w.outputs ++ newRows b.transactions) (allRefs b.transactions),
        w.inputs ++ allInRows b.transactions,
        runOps w.balances (blockOps w.outputs b.transactions)⟩
      hWFv1 hrep1 hTE1 hbal1 (hwkeys1.trans hwkeys) with ⟨wfin, hrepw, hTEf, hbalf, hkf⟩
    refine ⟨wfin, ?_, hTEf, hbalf, ?_⟩
    · simp [replay, hsbw]
      exact hrepw
    · rw [hkf]
      exact hwkeys1

theorem replay_heights (bs : List Block) (v w : Ledger) (hWF : WF v)
    (hrep : replay v bs = some w) :
    bs.map Block.height = List.range' (v.blocks.length + 1) bs.length := by
  induction bs generalizing v with
  | nil => rfl
  | cons b rest ih =>
    rcases replay_cons_ok v b rest w hrep with ⟨v1, hsb, hrep1⟩
    rcases submitBlock_ok_parts v b v1 hsb with ⟨hval, hok⟩
    obtain ⟨_, _, _, hs1⟩ := applyBlock_ok_spec v b v1 hok
      (validate_found_ne v b hval) hWF.2.2.2.1
    have hbh : b.height = v.blocks.length + 1 := by
      rw [(validate_none_parts v b hval).1]
      rw [show currentHeight v = v.blocks.length from currentHeight_of_heights _ hWF.1]
    have hlen1 : v1.blocks.length = v.blocks.length + 1 := by
      rw [show v1.blocks = v.blocks ++ [(b.id, b.height)] from by rw [hs1]]
      simp
    have hrest := ih v1 (WF_applyBlock v b v1 hWF hval hok) hrep1
    show b.height :: rest.map Block.height
      = List.range' (v.blocks.length + 1) (rest.length + 1)
    rw [show List.range' (v.blocks.length + 1) (rest.length + 1)
        = (v.blocks.length + 1) :: List.range' (v.blocks.length + 1 + 1) rest.length
      from rfl, hbh, hrest, hlen1]

theorem replay_blocks (bs : List Block) (v w : Ledger) (hWF : WF v)
    (hrep : replay v bs = some w) :
    w.blocks = v.blocks ++ bs.map (fun b => (b.id, b.height)) := by
  induction bs generalizing v with
  | nil =>
    have h2 : v = w := by simpa [replay] using hrep
    rw [← h2]
    simp
  | cons b rest ih =>
    rcases replay_cons_ok v b rest w hrep with ⟨v1, hsb, hrep1⟩
    rcases submitBlock_ok_parts v b v1 hsb with ⟨hval, hok⟩
    obtain ⟨_, _, _, hs1⟩ := applyBlock_ok_spec v b v1 hok
      (validate_found_ne v b hval) hWF.2.2.2.1
    have hrec := ih v1 (WF_applyBlock v b v1 hWF hval hok) hrep1
    rw [hrec, show v1.blocks = v.blocks ++ [(b.id, b.height)] from by rw [hs1],
      List.append_assoc]
    rfl

theorem WF_emptyLedger : WF emptyLedger :=
  ⟨rfl, List.nodup_nil, List.nodup_nil,
    fun r hr => absurd hr (List.not_mem_nil _), List.nodup_nil,
    fun r hr => absurd hr (List.not_mem_nil _),
    fun r hr => absurd hr (List.not_mem_nil _),
    fun p hp => absurd hp (List.not_mem_nil _), List.nodup_nil⟩

/-- C8: Rollback/apply is an exact inverse pair (rollback is spec-modelled:
the repository's `src/` has no rollback handler, so `rollbackTo` follows
spec section 4.3). For every committed ledger state `s`, reached by
replaying an accepted block sequence `bs` from the empty ledger, the
ledger's block records are exactly the submitted blocks with contiguous
heights 1..n, and for every target height `h ≤ n`, `rollbackTo h` succeeds
and re-submitting exactly the blocks that previously existed above height
`h` (`bs.drop h`, in ascending height order) reproduces the state `s`
identically: blocks, transactions, outputs with their spent flags, inputs
and balances. -/
theorem rollback_replay_inverse (bs : List Block) (h : Nat) (s : Ledger)
    (hrep : replay emptyLedger bs = some s) (hh : h ≤ bs.length) :
    s.blocks = bs.map (fun b => (b.id, b.height)) ∧
    bs.map Block.height = List.range' 1 bs.length ∧
    (rollbackTo h s).bind (fun r => replay r (bs.drop h)) = some s := by
  have hWFs : WF s := WF_replay bs emptyLedger s WF_emptyLedger hrep
  have hblocks : s.blocks = bs.map (fun b => (b.id, b.height)) := by
    simpa using replay_blocks bs emptyLedger s WF_emptyLedger hrep
  have hheights : bs.map Block.height = List.range' 1 bs.length := by
    simpa using replay_heights bs emptyLedger s WF_emptyLedger hrep
  refine ⟨hblocks, hheights, ?_⟩
  have hslen : s.blocks.length = bs.length := by
    simpa [emptyLedger] using blocks_length_replay bs emptyLedger s WF_emptyLedger hrep
  have hsplit : bs.take h ++ bs.drop h = bs := List.take_append_drop h bs
  have hrepsplit : replay emptyLedger (bs.take h ++ bs.drop h) = some s := by
    rw [hsplit]
    exact hrep
  rw [replay_append] at hrepsplit
  cases hm : replay emptyLedger (bs.take h) with
  | none =>
    rw [hm] at hrepsplit
    cases hrepsplit
  | some sh =>
    rw [hm] at hrepsplit
    have hrep2 : replay sh (bs.drop h) = some s := hrepsplit
    have hWFsh : WF sh := WF_replay _ _ _ WF_emptyLedger hm
    have hshlen : sh.blocks.length = h := by
      have h1 := blocks_length_replay _ _ _ WF_emptyLedger hm
      have h2 : (bs.take h).length = h := by
        rw [List.length_take]
        omega
      simpa [h2, emptyLedger] using h1
    have hch : currentHeight s = s.blocks.length := currentHeight_of_heights _ hWFs.1
    have hrb : rollbackTo h s = some (rollbackSteps h s.blocks.length s) := by
      unfold rollbackTo
      rw [if_pos (by omega)]
    have hchain := rollback_chain (bs.drop h) sh s s s.blocks.length hWFsh hrep2
      (by rw [List.length_drop]; omega) ⟨rfl, rfl, rfl, rfl⟩ rfl (fun a ha => ha)
    rw [hshlen] at hchain
    rcases replay_parallel (bs.drop h) sh (rollbackSteps h s.blocks.length s) s
      hWFsh hWFs hrep2 hchain.1 hchain.2.1 hchain.2.2
      with ⟨wfin, hrepw, hTEf, hbalf, hkf⟩
    have hwfin : wfin = s := by
      apply ledger_ext _ _ hTEf.1 hTEf.2.1 hTEf.2.2.1 hTEf.2.2.2
      apply balances_ext
      · exact hkf.trans hchain.2.2
      · rw [hkf.trans hchain.2.2]
        exact hWFs.2.2.2.2.2.2.2.2
      · exact fun x => congrFun hbalf x
    rw [hrb]
    show replay (rollbackSteps h s.blocks.length s) (bs.drop h) = some s
    rw [hrepw, hwfin]

theorem rollback_replay_inverse_witness :
    replay emptyLedger [gblock, blk2]
        = some ((replay emptyLedger [gblock, blk2]).getD emptyLedger) ∧
    1 ≤ ([gblock, blk2] : List Block).length ∧
    (((replay emptyLedger [gblock, blk2]).getD emptyLedger).blocks
        = [gblock, blk2].map (fun b => (b.id, b.height)) ∧
      [gblock, blk2].map Block.height
        = List.range' 1 ([gblock, blk2] : List Block).length ∧
      (rollbackTo 1 ((replay emptyLedger [gblock, blk2]).getD emptyLedger)).bind
          (fun r => replay r ([gblock, blk2].drop 1))
        = some ((replay emptyLedger [gblock, blk2]).getD emptyLedger)) :=
  ⟨rfl, by decide, rollback_replay_inverse [gblock, blk2] 1 _ rfl (by decide)⟩

/-- C10 counterexample: the claim as frozen is false at a concrete
reachable state. Replaying `collChain` (a genesis whose single
transaction has id "2", then empty blocks at heights 2..11) commits a
state of current height 11 that stores a block row with id
SHA-256("12"). The empty block at height 12 satisfies every condition
of the claim — no transactions, height = current height + 1, id the
SHA-256 digest of the height's decimal string "12" alone — yet
`submitBlock` rejects it: the genesis block id is the digest of the
same preimage "12", so the blocks primary-key duplicate check fires
and the submission fails with `duplicateBlock` instead of being
accepted. -/
theorem empty_block_submission_counterexample :
    replay emptyLedger collChain = some collState ∧
    (emptyBlockAt 12).transactions = [] ∧
    (emptyBlockAt 12).height = currentHeight collState + 1 ∧
    (emptyBlockAt 12).id = Sha256.sha256hexStr (toString (emptyBlockAt 12).height) ∧
    submitBlock collState (emptyBlockAt 12) = .error .duplicateBlock :=
  ⟨rfl, rfl, rfl, rfl, rfl⟩
